import Mathlib

/-!
# Verification of the pairwise-ranking core (`urgent_vs_important`)

This development embeds, in Lean, the core of the repository's
ranking/reconciliation engine:

* `PairwiseBinarySorter` (src/pairwise_comparison.py, lines 118-156):
  the resumable binary-insertion sorter;
* `RankingController` reconciliation (`_reconcile_sheet_with_google`,
  lines 205-267) and its normalisation `_norm`;
* `SheetsClient.write_full_state` / `read_full_state`
  (src/sheets_api.py, lines 255-475);
* the `RankingController` orchestration (decision handling, persistence,
  queued deletions; src/pairwise_comparison.py, lines 160-488),
  modelled as an explicit state machine whose external effects
  (ledger writes, live-source deletions) are recorded as an event trace.

Python dictionaries are modelled as association lists with insertion
order, Python `None`-able fields as `Option`, raised exceptions as
`Except` results or truncated control flow, and object mutation as
functional record update.  Every definition is translated directly
from the Python source.
-/

namespace UVI

/-- One task-like unit, mirroring the Python task dictionaries.
Absent dictionary keys are `none`; the free-form string metadata
fields default to the empty string, matching `t.get(k) or ""` usage.
`link` models the `_link` key. -/
structure Task where
  id : Option String := none
  title : String := ""
  notes : String := ""
  link : String := ""
  category : String := ""
  effort : String := ""
  joy : String := ""
  task_list_id : Option String := none
  pos : Option String := none
  list_title : Option String := none
  parent : Option String := none
  deriving DecidableEq

instance : Inhabited Task := ⟨{}⟩

/-- Python `(s or "").strip()`: drop leading and trailing whitespace.
Implemented on the character list so that it evaluates inside the
kernel (Lean's own `String.trim` is compiled by well-founded recursion
and does not reduce). -/
def strip (s : String) : String :=
  ⟨((s.data.dropWhile Char.isWhitespace).reverse.dropWhile
      Char.isWhitespace).reverse⟩

/-- Python `str.split()` with no separator: maximal runs of
non-whitespace characters, in order; empty tokens never occur.  `acc`
holds the (reversed) current token. -/
def splitWsAux : List Char → List Char → List (List Char)
  | [], acc => if acc.isEmpty then [] else [acc.reverse]
  | c :: rest, acc =>
    if c.isWhitespace then
      if acc.isEmpty then splitWsAux rest []
      else acc.reverse :: splitWsAux rest []
    else splitWsAux rest (c :: acc)

/-- `RankingController._norm` (src/pairwise_comparison.py lines
205-208): `" ".join(s.strip().split()).lower()` — trim, collapse
internal whitespace to single spaces, lowercase (the leading `strip` is
redundant because `split()` already ignores outer whitespace). -/
def norm (s : String) : String :=
  ⟨(List.intercalate [' '] (splitWsAux s.data [])).map Char.toLower⟩

/-- Python `list.insert(i, a)`: clamps the index to the list length. -/
def pyInsert (l : List α) (i : Nat) (a : α) : List α :=
  l.take i ++ a :: l.drop i

/-! ## Association-list helpers (Python `dict` with insertion order) -/

/-- `d.get(k)` — first (unique) binding of `k`. -/
def lookupA {α : Type} : List (String × α) → String → Option α
  | [], _ => none
  | (k', v) :: rest, k => if k' = k then some v else lookupA rest k

/-- `d[k] = v` — overwrite the binding in place, or append a new one. -/
def setA {α : Type} : List (String × α) → String → α → List (String × α)
  | [], k, v => [(k, v)]
  | (k', w) :: rest, k, v =>
    if k' = k then (k', v) :: rest else (k', w) :: setA rest k v

/-- `d.setdefault(k, []).append(x)`. -/
def appendA {α : Type} : List (String × List α) → String → α → List (String × List α)
  | [], k, x => [(k, [x])]
  | (k', v) :: rest, k, x =>
    if k' = k then (k', v ++ [x]) :: rest else (k', v) :: appendA rest k x

/-! ## The binary-insertion sorter (src/pairwise_comparison.py 118-156) -/

/-- One in-progress binary-search frame `(low, high, mid, candidate)`. -/
structure Frame where
  low : Nat
  high : Nat
  mid : Nat
  cand : Task
  deriving DecidableEq

instance : Inhabited Frame := ⟨⟨0, 0, 0, default⟩⟩

/-- Sorter state: `self.sorted`, `self.remaining`, `self.frames`.
The Python list `frames` is used as a stack (append / `[-1]` / `pop()`
all at the same end); we keep the top of the stack at the head. -/
structure PairwiseBinarySorter where
  sorted : List Task
  remaining : List Task
  frames : List Frame
  deriving DecidableEq

namespace PairwiseBinarySorter

/-- `has_work`: `bool(self.remaining) or bool(self.frames)`. -/
def has_work (s : PairwiseBinarySorter) : Bool :=
  !s.remaining.isEmpty || !s.frames.isEmpty

/-- Result of `current_pair`: the offered pair (if any), the updated
sorter, and whether the call completed without an `IndexError`
(`ok = false` models `self.sorted[mid]` raising). -/
structure CPResult where
  pair : Option (Task × Task)
  st : PairwiseBinarySorter
  ok : Bool
  deriving DecidableEq

/-- `current_pair` (lines 127-139), with the mutable fields passed
explicitly so the recursion (the empty-baseline auto-place followed by
`return self.current_pair()`) is structural on `remaining`. -/
def currentPairAux : List Task → List Task → List Frame → CPResult
  | so, rem, f :: fs =>
    match so[f.mid]? with
    | some probe => ⟨some (f.cand, probe), ⟨so, rem, f :: fs⟩, true⟩
    | none => ⟨none, ⟨so, rem, f :: fs⟩, false⟩
  | so, [], [] => ⟨none, ⟨so, [], []⟩, true⟩
  | so, c :: rest, [] =>
    if so.isEmpty then
      currentPairAux (so ++ [c]) rest []
    else
      let high := so.length
      let mid := high / 2
      match so[mid]? with
      | some probe => ⟨some (c, probe), ⟨so, c :: rest, [⟨0, high, mid, c⟩]⟩, true⟩
      | none => ⟨none, ⟨so, c :: rest, [⟨0, high, mid, c⟩]⟩, false⟩

/-- `current_pair` (lines 127-139). -/
def current_pair (s : PairwiseBinarySorter) : CPResult :=
  currentPairAux s.sorted s.remaining s.frames

/-- `decide` (lines 141-156).  Note the Python guard
`self.remaining[0].get("id") == cand.get("id")`: two absent ids compare
equal (`None == None`), which is why the comparison is on `Option`s. -/
def decide (s : PairwiseBinarySorter) (choose_left : Bool) :
    Option Task × PairwiseBinarySorter :=
  match s.frames with
  | [] => (none, s)
  | f :: fs =>
    let rem : List Task :=
      match s.remaining with
      | [] => s.remaining
      | r :: rest => if r.id = f.cand.id then rest else s.remaining
    let low := if choose_left then f.low else f.mid + 1
    let high := if choose_left then f.mid else f.high
    if high ≤ low then
      (some f.cand, ⟨pyInsert s.sorted low f.cand, rem, fs⟩)
    else
      (none, ⟨s.sorted, rem, ⟨low, high, (low + high) / 2, f.cand⟩ :: fs⟩)

end PairwiseBinarySorter

namespace PairwiseBinarySorter

/-! ### Unfolding lemmas for `current_pair` and `decide` -/

theorem current_pair_nil_nil (so : List Task) :
    current_pair ⟨so, [], []⟩ = ⟨none, ⟨so, [], []⟩, true⟩ := rfl

theorem current_pair_auto (c : Task) (rest : List Task) :
    current_pair ⟨[], c :: rest, []⟩ = current_pair ⟨[c], rest, []⟩ := rfl

theorem current_pair_open (so : List Task) (c : Task) (rest : List Task)
    (h : so ≠ []) :
    current_pair ⟨so, c :: rest, []⟩ =
      ⟨(so[so.length / 2]?).map (fun p => (c, p)),
        ⟨so, c :: rest, [⟨0, so.length, so.length / 2, c⟩]⟩,
        (so[so.length / 2]?).isSome⟩ := by
  simp only [current_pair, currentPairAux]
  simp only [List.isEmpty_iff, h, if_false]
  cases hp : so[so.length / 2]? <;> simp [hp]

theorem current_pair_frame (so rem : List Task) (f : Frame) (fs : List Frame) :
    current_pair ⟨so, rem, f :: fs⟩ =
      ⟨(so[f.mid]?).map (fun p => (f.cand, p)), ⟨so, rem, f :: fs⟩,
        (so[f.mid]?).isSome⟩ := by
  simp only [current_pair, currentPairAux]
  cases hp : so[f.mid]? <;> simp [hp]

/-- The pending-queue update performed by `decide`: the head of the
queue is popped exactly when its id equals the candidate's id (two
absent ids compare equal, as Python `None == None`). -/
def removeHeadIfSameId (pending : List Task) (cand : Task) : List Task :=
  match pending with
  | [] => pending
  | r :: rest => if r.id = cand.id then rest else pending

theorem decide_cons_true (so rem : List Task) (f : Frame) (fs : List Frame) :
    decide ⟨so, rem, f :: fs⟩ true =
      if f.mid ≤ f.low then
        (some f.cand, ⟨pyInsert so f.low f.cand, removeHeadIfSameId rem f.cand, fs⟩)
      else
        (none, ⟨so, removeHeadIfSameId rem f.cand,
          ⟨f.low, f.mid, (f.low + f.mid) / 2, f.cand⟩ :: fs⟩) := rfl

theorem decide_cons_false (so rem : List Task) (f : Frame) (fs : List Frame) :
    decide ⟨so, rem, f :: fs⟩ false =
      if f.high ≤ f.mid + 1 then
        (some f.cand, ⟨pyInsert so (f.mid + 1) f.cand, removeHeadIfSameId rem f.cand, fs⟩)
      else
        (none, ⟨so, removeHeadIfSameId rem f.cand,
          ⟨f.mid + 1, f.high, (f.mid + 1 + f.high) / 2, f.cand⟩ :: fs⟩) := rfl

/-! ### Reachability and structural invariants of the sorter -/

/-- States reachable from `s` by any interleaving of `current_pair` and
`decide` calls with arbitrary boolean decisions. -/
inductive Reaches : PairwiseBinarySorter → PairwiseBinarySorter → Prop
  | refl (s : PairwiseBinarySorter) : Reaches s s
  | cp {s t : PairwiseBinarySorter} : Reaches s t → Reaches s (current_pair t).st
  | dec {s t : PairwiseBinarySorter} (b : Bool) :
      Reaches s t → Reaches s (decide t b).2

/-- Bounds of a well-formed search frame over a baseline of length `len`. -/
def FrameOK (len : Nat) (f : Frame) : Prop :=
  f.low ≤ f.mid ∧ f.mid < f.high ∧ f.high ≤ len ∧ f.mid = (f.low + f.high) / 2

/-- The sorter's structural invariant: at most one open frame, and every
frame is in bounds for the current `sorted` sequence. -/
def SorterInv (s : PairwiseBinarySorter) : Prop :=
  s.frames.length ≤ 1 ∧ ∀ f ∈ s.frames, FrameOK s.sorted.length f

theorem sorterInv_of_no_frames {s : PairwiseBinarySorter} (h : s.frames = []) :
    SorterInv s := by
  constructor <;> simp [SorterInv, h]

theorem sorterInv_fresh (so rem : List Task) (c : Task) (h : so ≠ []) :
    SorterInv ⟨so, rem, [⟨0, so.length, so.length / 2, c⟩]⟩ := by
  refine ⟨by simp, ?_⟩
  intro f hf
  simp only [List.mem_singleton] at hf
  subst hf
  exact ⟨Nat.zero_le _, Nat.div_lt_self (List.length_pos.mpr h) (by norm_num),
    le_refl _, by simp⟩

theorem fresh_ok (so : List Task) (c : Task) (rest : List Task) (h : so ≠ []) :
    (current_pair ⟨so, c :: rest, []⟩).ok = true := by
  rw [current_pair_open _ _ _ h]
  have hm : so.length / 2 < so.length :=
    Nat.div_lt_self (List.length_pos.mpr h) (by norm_num)
  simp [List.getElem?_eq_getElem hm]

theorem current_pair_preserves {s : PairwiseBinarySorter} (h : SorterInv s) :
    SorterInv (current_pair s).st ∧ (current_pair s).ok = true := by
  obtain ⟨so, rem, fr⟩ := s
  match fr with
  | f :: fs =>
    have hfok : FrameOK so.length f := h.2 f (by simp)
    have hm : f.mid < so.length := lt_of_lt_of_le hfok.2.1 hfok.2.2.1
    rw [current_pair_frame]
    exact ⟨h, by simp [List.getElem?_eq_getElem hm]⟩
  | [] =>
    match rem with
    | [] => rw [current_pair_nil_nil]; exact ⟨sorterInv_of_no_frames rfl, rfl⟩
    | c :: rest =>
      by_cases hso : so = []
      · subst hso
        rw [current_pair_auto]
        match rest with
        | [] => rw [current_pair_nil_nil]; exact ⟨sorterInv_of_no_frames rfl, rfl⟩
        | d :: rest2 =>
          constructor
          · rw [current_pair_open _ _ _ (by simp)]
            exact sorterInv_fresh _ _ _ (by simp)
          · exact fresh_ok _ _ _ (by simp)
      · constructor
        · rw [current_pair_open _ _ _ hso]
          exact sorterInv_fresh _ _ _ hso
        · exact fresh_ok _ _ _ hso

theorem decide_preserves {s : PairwiseBinarySorter} (b : Bool) (h : SorterInv s) :
    SorterInv (decide s b).2 := by
  obtain ⟨so, rem, fr⟩ := s
  match fr with
  | [] => exact h
  | f :: fs =>
    have hfs : fs = [] := by
      have := h.1
      simp at this
      exact this
    subst hfs
    have hfok : FrameOK so.length f := h.2 f (by simp)
    obtain ⟨h1, h2, h3, h4⟩ := hfok
    cases b
    · rw [decide_cons_false]
      split
      · exact sorterInv_of_no_frames rfl
      · rename_i hlt
        refine ⟨by simp, ?_⟩
        intro g hg
        simp only [List.mem_singleton] at hg
        subst hg
        refine ⟨?_, ?_, ?_, rfl⟩ <;> simp only <;> omega
    · rw [decide_cons_true]
      split
      · exact sorterInv_of_no_frames rfl
      · rename_i hlt
        refine ⟨by simp, ?_⟩
        intro g hg
        simp only [List.mem_singleton] at hg
        subst hg
        refine ⟨?_, ?_, ?_, rfl⟩ <;> simp only <;> omega

theorem reaches_inv {s t : PairwiseBinarySorter} (hinit : s.frames = [])
    (h : Reaches s t) : SorterInv t := by
  induction h with
  | refl => exact sorterInv_of_no_frames hinit
  | cp _ ih => exact (current_pair_preserves ih).1
  | dec b _ ih => exact decide_preserves b ih

/-! ### Monotonicity of `sorted` (baseline preservation) -/

theorem decide_sorted_mono (t : PairwiseBinarySorter) (b : Bool) :
    List.Sublist t.sorted ((decide t b).2).sorted := by
  obtain ⟨so, rem, fr⟩ := t
  match fr with
  | [] => simp [decide]
  | f :: fs =>
    cases b
    · rw [decide_cons_false]
      split
      · simp only [pyInsert]
        conv_lhs => rw [(List.take_append_drop (f.mid + 1) so).symm]
        exact List.Sublist.append_left (List.sublist_cons_self _ _) _
      · simp
    · rw [decide_cons_true]
      split
      · simp only [pyInsert]
        conv_lhs => rw [(List.take_append_drop f.low so).symm]
        exact List.Sublist.append_left (List.sublist_cons_self _ _) _
      · simp

theorem current_pair_sorted_mono (t : PairwiseBinarySorter) :
    List.Sublist t.sorted ((current_pair t).st).sorted := by
  obtain ⟨so, rem, fr⟩ := t
  match fr with
  | f :: fs => rw [current_pair_frame]
  | [] =>
    match rem with
    | [] => rw [current_pair_nil_nil]
    | c :: rest =>
      by_cases hso : so = []
      · subst hso
        rw [current_pair_auto]
        match rest with
        | [] => rw [current_pair_nil_nil]; simp
        | d :: rest2 =>
          rw [current_pair_open _ _ _ (by simp)]
          simp
      · rw [current_pair_open _ _ _ hso]

theorem reaches_sorted_mono {s t : PairwiseBinarySorter} (h : Reaches s t) :
    List.Sublist s.sorted t.sorted := by
  induction h with
  | refl => exact List.Sublist.refl _
  | cp _ ih => exact ih.trans (current_pair_sorted_mono _)
  | dec b _ ih => exact ih.trans (decide_sorted_mono _ b)

end PairwiseBinarySorter

/-- C10: in every sorter state reachable from an initial state (no open
frame) by `current_pair`/`decide` calls, the frame stack holds at most
one frame, every frame satisfies `low ≤ mid < high ≤ length sorted`
(lows are naturals, hence `0 ≤ low`), the probe lookup `sorted[mid]` in
`current_pair` is in bounds so neither method fails on indexing
(`ok = true` means no `IndexError` is raised), and `decide` called with
an empty frame stack returns `none` and leaves the state unchanged. -/
theorem C10_sorter_totality (s t : PairwiseBinarySorter)
    (hinit : s.frames = []) (h : PairwiseBinarySorter.Reaches s t) :
    (t.frames.length ≤ 1 ∧
      ∀ f ∈ t.frames, f.low ≤ f.mid ∧ f.mid < f.high ∧ f.high ≤ t.sorted.length) ∧
    (PairwiseBinarySorter.current_pair t).ok = true ∧
    (t.frames = [] → ∀ b, PairwiseBinarySorter.decide t b = (none, t)) := by
  have hinv := PairwiseBinarySorter.reaches_inv hinit h
  refine ⟨⟨hinv.1, ?_⟩, (PairwiseBinarySorter.current_pair_preserves hinv).2, ?_⟩
  · intro f hf
    have := hinv.2 f hf
    exact ⟨this.1, this.2.1, this.2.2.1⟩
  · intro hfr b
    obtain ⟨so, rem, fr⟩ := t
    simp only at hfr
    subst hfr
    simp [PairwiseBinarySorter.decide]

/-- Witness for C10 at a concrete reachable state: starting from the
baseline `[{title := "a"}]` with one pending item and taking one
`current_pair` step. -/
theorem C10_witness :
    ((PairwiseBinarySorter.current_pair
        ⟨[{ title := "a" }], [{ title := "x" }], []⟩).st.frames.length ≤ 1 ∧
      ∀ f ∈ (PairwiseBinarySorter.current_pair
        ⟨[{ title := "a" }], [{ title := "x" }], []⟩).st.frames,
        f.low ≤ f.mid ∧ f.mid < f.high ∧
          f.high ≤ (PairwiseBinarySorter.current_pair
            ⟨[{ title := "a" }], [{ title := "x" }], []⟩).st.sorted.length) ∧
    (PairwiseBinarySorter.current_pair (PairwiseBinarySorter.current_pair
        ⟨[{ title := "a" }], [{ title := "x" }], []⟩).st).ok = true ∧
    ((PairwiseBinarySorter.current_pair
        ⟨[{ title := "a" }], [{ title := "x" }], []⟩).st.frames = [] →
      ∀ b, PairwiseBinarySorter.decide (PairwiseBinarySorter.current_pair
        ⟨[{ title := "a" }], [{ title := "x" }], []⟩).st b =
        (none, (PairwiseBinarySorter.current_pair
          ⟨[{ title := "a" }], [{ title := "x" }], []⟩).st)) :=
  C10_sorter_totality _ _ rfl
    (PairwiseBinarySorter.Reaches.cp (PairwiseBinarySorter.Reaches.refl _))

/-- C4: the already-sorted baseline handed to the sorter is never
disturbed: in every state reachable by `current_pair`/`decide` calls
with arbitrary decisions, the initial `sorted` sequence occurs as a
sublist of the current `sorted` sequence (all of its elements, in their
original relative order), and each single step only ever extends
`sorted` by insertion, never permuting previously placed elements. -/
theorem C4_baseline_order_preserved (s t : PairwiseBinarySorter)
    (h : PairwiseBinarySorter.Reaches s t) :
    List.Sublist s.sorted t.sorted ∧
    (∀ b, List.Sublist t.sorted ((PairwiseBinarySorter.decide t b).2).sorted) ∧
    List.Sublist t.sorted ((PairwiseBinarySorter.current_pair t).st).sorted :=
  ⟨PairwiseBinarySorter.reaches_sorted_mono h,
    fun b => PairwiseBinarySorter.decide_sorted_mono t b,
    PairwiseBinarySorter.current_pair_sorted_mono t⟩

/-- Witness for C4: the two-element baseline survives one
`current_pair` step and one `decide` step. -/
theorem C4_witness :
    List.Sublist [{ title := "a" }, ({ title := "b" } : Task)]
      ((PairwiseBinarySorter.decide (PairwiseBinarySorter.current_pair
        ⟨[{ title := "a" }, { title := "b" }], [{ title := "x" }], []⟩).st
        true).2).sorted ∧
    (∀ b, List.Sublist
      ((PairwiseBinarySorter.decide (PairwiseBinarySorter.current_pair
        ⟨[{ title := "a" }, { title := "b" }], [{ title := "x" }], []⟩).st
        true).2).sorted
      ((PairwiseBinarySorter.decide ((PairwiseBinarySorter.decide
        (PairwiseBinarySorter.current_pair
          ⟨[{ title := "a" }, { title := "b" }], [{ title := "x" }], []⟩).st
        true).2) b).2).sorted) ∧
    List.Sublist
      ((PairwiseBinarySorter.decide (PairwiseBinarySorter.current_pair
        ⟨[{ title := "a" }, { title := "b" }], [{ title := "x" }], []⟩).st
        true).2).sorted
      ((PairwiseBinarySorter.current_pair ((PairwiseBinarySorter.decide
        (PairwiseBinarySorter.current_pair
          ⟨[{ title := "a" }, { title := "b" }], [{ title := "x" }], []⟩).st
        true).2)).st).sorted := by
  exact C4_baseline_order_preserved
    ⟨[{ title := "a" }, { title := "b" }], [{ title := "x" }], []⟩ _
    (PairwiseBinarySorter.Reaches.dec true
      (PairwiseBinarySorter.Reaches.cp (PairwiseBinarySorter.Reaches.refl _)))

/-! ## C3: the `decide` step -/

namespace PairwiseBinarySorter

/-- The `decide` step as described by the amended specification: pop
the top frame, update the pending queue by `removeHeadIfSameId`, narrow
the interval (`high ← mid` on a left choice, `low ← mid + 1`
otherwise), then either insert the candidate at index `low` and report
it placed (when `low ≥ high`) or push a new frame with
`mid = (low + high) / 2`. -/
def decideDescribed (s : PairwiseBinarySorter) (choose_left : Bool) :
    Option Task × PairwiseBinarySorter :=
  match s.frames with
  | [] => (none, s)
  | f :: fs =>
    let pending := removeHeadIfSameId s.remaining f.cand
    let lo := if choose_left then f.low else f.mid + 1
    let hi := if choose_left then f.mid else f.high
    if lo ≥ hi then
      (some f.cand, ⟨s.sorted.take lo ++ f.cand :: s.sorted.drop lo, pending, fs⟩)
    else
      (none, ⟨s.sorted, pending, ⟨lo, hi, (lo + hi) / 2, f.cand⟩ :: fs⟩)

end PairwiseBinarySorter

/-- C3 (counterexample): the claim says the pending-queue removal is by
"identity by id, or by object identity if id absent".  Run the sorter
on baseline `[a, b]` with three id-less pending items `x, y, z`:
`current_pair` opens a frame for candidate `x`; the first `decide true`
correctly removes `x` (then the head) and pushes a refined frame; but
the *second* `decide true` — not a first decision for `x`, whose
candidate `x` is no longer pending — nevertheless pops the unrelated
head `y` from the pending queue, because the Python comparison
`remaining[0].get("id") == cand.get("id")` succeeds on `None == None`.
Under the claim's removal rule the pending queue would still be
`[y, z]`; the code leaves `[z]`, silently dropping `y`. -/
theorem C3_counterexample_idless_pending :
    (((PairwiseBinarySorter.decide ((PairwiseBinarySorter.decide
        (PairwiseBinarySorter.current_pair
          ⟨[{ title := "a" }, { title := "b" }],
            [{ title := "x" }, { title := "y" }, { title := "z" }], []⟩).st
        true).2) true).2).remaining = [{ title := "z" }]) ∧
    (((PairwiseBinarySorter.decide ((PairwiseBinarySorter.decide
        (PairwiseBinarySorter.current_pair
          ⟨[{ title := "a" }, { title := "b" }],
            [{ title := "x" }, { title := "y" }, { title := "z" }], []⟩).st
        true).2) true).2).remaining ≠
      [{ title := "y" }, { title := "z" }]) ∧
    ({ title := "y" } : Task) ≠ { title := "x" } := by
  refine ⟨?_, ?_, ?_⟩ <;> decide

/-- C3 (amended): for every sorter state with a non-empty frame stack,
`decide` pops the top frame and behaves exactly as `decideDescribed`:
the head of pending is removed iff its id equals the candidate's id
(absent ids comparing equal) — on the first decision for a candidate,
when the candidate is still the head of pending, this removes exactly
the candidate (second conjunct); `high` becomes `mid` on a left choice
and `low` becomes `mid + 1` otherwise; if then `low ≥ high` the
candidate is inserted into `sorted` at index `low` and returned as
placed, else a new frame with `mid = (low + high) / 2` is pushed and
`none` is returned. -/
theorem C3_decide_step_characterisation (s : PairwiseBinarySorter)
    (b : Bool) (f : Frame) (fs : List Frame) (hfr : s.frames = f :: fs) :
    PairwiseBinarySorter.decide s b = PairwiseBinarySorter.decideDescribed s b ∧
    (s.remaining.head? = some f.cand →
      ((PairwiseBinarySorter.decide s b).2).remaining = s.remaining.tail) := by
  obtain ⟨so, rem, fr⟩ := s
  simp only at hfr
  subst hfr
  constructor
  · cases b <;> rfl
  · intro hhead
    match rem with
    | [] => simp at hhead
    | r :: rest =>
      simp only [List.head?_cons, Option.some_inj] at hhead
      subst hhead
      cases b
      · rw [PairwiseBinarySorter.decide_cons_false]
        unfold PairwiseBinarySorter.removeHeadIfSameId
        split <;> simp
      · rw [PairwiseBinarySorter.decide_cons_true]
        unfold PairwiseBinarySorter.removeHeadIfSameId
        split <;> simp

/-- Witness for C3's amended theorem, on a first decision: the frame's
candidate `x` heads the pending queue and is removed by `decide`. -/
theorem C3_witness :
    (PairwiseBinarySorter.decide
        ⟨[{ title := "a" }], [{ title := "x" }], [⟨0, 1, 0, { title := "x" }⟩]⟩ true =
      PairwiseBinarySorter.decideDescribed
        ⟨[{ title := "a" }], [{ title := "x" }], [⟨0, 1, 0, { title := "x" }⟩]⟩ true) ∧
    (([{ title := "x" }] : List Task).head? = some { title := "x" } →
      ((PairwiseBinarySorter.decide
        ⟨[{ title := "a" }], [{ title := "x" }], [⟨0, 1, 0, { title := "x" }⟩]⟩
        true).2).remaining = ([{ title := "x" }] : List Task).tail) :=
  C3_decide_step_characterisation _ true _ [] rfl

/-! ## C5: insertion correctness and comparison count -/

/-- Driver loop for placing one candidate: each UI round calls
`current_pair` and then `decide` with the next boolean decision,
counting `decide` calls until one returns a placed item.  `none` means
the decisions ran out (or there was no work / an index error) before a
placement happened. -/
def placeRun : PairwiseBinarySorter → List Bool →
    Option (Nat × Task × PairwiseBinarySorter)
  | _, [] => none
  | s, b :: bs =>
    let r := PairwiseBinarySorter.current_pair s
    if r.ok then
      match r.pair with
      | none => none
      | some _ =>
        match PairwiseBinarySorter.decide r.st b with
        | (some t, s2) => some (1, t, s2)
        | (none, s2) =>
          match placeRun s2 bs with
          | some (k, t, s3) => some (k + 1, t, s3)
          | none => none
    else none

theorem clog2_succ_eq (n : Nat) (h : 1 ≤ n) :
    Nat.clog 2 (n + 1) = Nat.clog 2 (n / 2 + 1) + 1 := by
  rw [Nat.clog_of_two_le (by norm_num) (by omega)]
  congr 2
  omega

theorem clog2_three : Nat.clog 2 3 = 2 := by
  rw [show (3 : Nat) = 2 + 1 from rfl, clog2_succ_eq 2 (by norm_num)]
  rw [show (2 : Nat) / 2 + 1 = 1 + 1 from rfl, clog2_succ_eq 1 (by norm_num)]
  simp [Nat.clog_one_right]

theorem placeRun_frame_bound :
    ∀ (ds : List Bool) (so rem : List Task) (f : Frame) (fs : List Frame)
      (k : Nat) (c : Task) (s' : PairwiseBinarySorter),
      f.mid = (f.low + f.high) / 2 → f.low < f.high →
      placeRun ⟨so, rem, f :: fs⟩ ds = some (k, c, s') →
      k ≤ Nat.clog 2 (f.high - f.low + 1)
  | [], so, rem, f, fs, k, c, s', hmid, hlh, hrun => by simp [placeRun] at hrun
  | b :: bs, so, rem, f, fs, k, c, s', hmid, hlh, hrun => by
    rw [placeRun] at hrun
    simp only [PairwiseBinarySorter.current_pair_frame] at hrun
    cases hp : so[f.mid]? with
    | none => rw [hp] at hrun; simp at hrun
    | some probe =>
      rw [hp] at hrun
      simp only [Option.isSome_some, if_true] at hrun
      have hmap : Option.map (fun p => (f.cand, p)) (some probe) =
          some (f.cand, probe) := rfl
      rw [hmap] at hrun
      simp only [] at hrun
      have h2 : 2 ≤ f.high - f.low + 1 := by omega
      cases b
      · rw [PairwiseBinarySorter.decide_cons_false] at hrun
        by_cases hcmp : f.high ≤ f.mid + 1
        · rw [if_pos hcmp] at hrun
          simp only [Option.some_inj, Prod.mk.injEq] at hrun
          obtain ⟨hk, _⟩ := hrun
          have := Nat.clog_pos (b := 2) (by norm_num) h2
          omega
        · rw [if_neg hcmp] at hrun
          simp only [] at hrun
          cases hrec : placeRun
              ⟨so, PairwiseBinarySorter.removeHeadIfSameId rem f.cand,
                ⟨f.mid + 1, f.high, (f.mid + 1 + f.high) / 2, f.cand⟩ :: fs⟩ bs with
          | none => rw [hrec] at hrun; simp at hrun
          | some res =>
            obtain ⟨k0, t0, s3⟩ := res
            rw [hrec] at hrun
            simp only [Option.some_inj, Prod.mk.injEq] at hrun
            obtain ⟨hk, _⟩ := hrun
            have ih := placeRun_frame_bound bs so
              (PairwiseBinarySorter.removeHeadIfSameId rem f.cand)
              ⟨f.mid + 1, f.high, (f.mid + 1 + f.high) / 2, f.cand⟩ fs
              k0 t0 s3 rfl (by simp only; omega) hrec
            simp only [] at ih
            have hmono : Nat.clog 2 (f.high - (f.mid + 1) + 1) ≤
                Nat.clog 2 ((f.high - f.low) / 2 + 1) :=
              Nat.clog_mono_right 2 (by omega)
            rw [clog2_succ_eq (f.high - f.low) (by omega)]
            omega
      · rw [PairwiseBinarySorter.decide_cons_true] at hrun
        by_cases hcmp : f.mid ≤ f.low
        · rw [if_pos hcmp] at hrun
          simp only [Option.some_inj, Prod.mk.injEq] at hrun
          obtain ⟨hk, _⟩ := hrun
          have := Nat.clog_pos (b := 2) (by norm_num) h2
          omega
        · rw [if_neg hcmp] at hrun
          simp only [] at hrun
          cases hrec : placeRun
              ⟨so, PairwiseBinarySorter.removeHeadIfSameId rem f.cand,
                ⟨f.low, f.mid, (f.low + f.mid) / 2, f.cand⟩ :: fs⟩ bs with
          | none => rw [hrec] at hrun; simp at hrun
          | some res =>
            obtain ⟨k0, t0, s3⟩ := res
            rw [hrec] at hrun
            simp only [Option.some_inj, Prod.mk.injEq] at hrun
            obtain ⟨hk, _⟩ := hrun
            have ih := placeRun_frame_bound bs so
              (PairwiseBinarySorter.removeHeadIfSameId rem f.cand)
              ⟨f.low, f.mid, (f.low + f.mid) / 2, f.cand⟩ fs
              k0 t0 s3 rfl (by simp only; omega) hrec
            simp only [] at ih
            have hmono : Nat.clog 2 (f.mid - f.low + 1) ≤
                Nat.clog 2 ((f.high - f.low) / 2 + 1) :=
              Nat.clog_mono_right 2 (by omega)
            rw [clog2_succ_eq (f.high - f.low) (by omega)]
            omega

theorem placeRun_open_shift (so : List Task) (c0 : Task) (rest : List Task)
    (h : so ≠ []) (ds : List Bool) :
    placeRun ⟨so, c0 :: rest, []⟩ ds =
      placeRun ⟨so, c0 :: rest, [⟨0, so.length, so.length / 2, c0⟩]⟩ ds := by
  cases ds with
  | nil => rfl
  | cons b bs =>
    rw [placeRun, placeRun]
    simp only [PairwiseBinarySorter.current_pair_open _ _ _ h,
      PairwiseBinarySorter.current_pair_frame]

theorem placeRun_fresh_bound (ds : List Bool) (so rem : List Task) (k : Nat)
    (c : Task) (s' : PairwiseBinarySorter) (h : so ≠ [])
    (hrun : placeRun ⟨so, rem, []⟩ ds = some (k, c, s')) :
    k ≤ Nat.clog 2 (so.length + 1) := by
  match rem with
  | [] =>
    cases ds with
    | nil => simp [placeRun] at hrun
    | cons b bs =>
      rw [placeRun] at hrun
      simp only [PairwiseBinarySorter.current_pair_nil_nil] at hrun
      simp at hrun
  | c0 :: rest =>
    rw [placeRun_open_shift so c0 rest h ds] at hrun
    have := placeRun_frame_bound ds so (c0 :: rest)
      ⟨0, so.length, so.length / 2, c0⟩ [] k c s' (by simp)
      (by simpa using List.length_pos.mpr h) hrun
    simpa using this

/-- C5 (counterexample to the exact comparison count): place the third
item (`i = 3`) against the already-ordered prefix `[a, b]` of size
`i - 1 = 2`.  The single decision `false` ("probe ranks above
candidate", probe being `b = ordered[1]`) already places the candidate
at the end after exactly 1 comparison, but `ceil (log2 3) = 2`.  So the
count is not "exactly `ceil (log2 i)`" for every decision sequence —
only an upper bound attained in the worst case. -/
theorem C5_counterexample_comparison_count :
    placeRun ⟨[{ title := "a" }, { title := "b" }], [{ title := "c" }], []⟩
        [false] =
      some (1, { title := "c" },
        ⟨[{ title := "a" }, { title := "b" }, { title := "c" }], [], []⟩) ∧
    (1 : Nat) ≠ Nat.clog 2 3 := by
  refine ⟨by decide, ?_⟩
  rw [clog2_three]
  norm_num

/-- The decision oracle induced by a ranking key: choose the candidate
("left") exactly when its key ranks strictly above (is less than) the
probe's key, the probe being `ordered[mid]` of the top frame — exactly
the pair offered by `current_pair`. -/
def oracleChoice (key : Task → Nat) (t : PairwiseBinarySorter) : Bool :=
  match t.frames with
  | f :: _ => decide (key f.cand < key (t.sorted.getD f.mid default))
  | [] => false

/-- Sorter states reachable when every decision is made by
`oracleChoice key` — i.e. all pairwise decisions are consistent with
the total preorder given by `key`. -/
inductive OReaches (key : Task → Nat) :
    PairwiseBinarySorter → PairwiseBinarySorter → Prop
  | refl (s : PairwiseBinarySorter) : OReaches key s s
  | cp {s t : PairwiseBinarySorter} :
      OReaches key s t → OReaches key s (PairwiseBinarySorter.current_pair t).st
  | dec {s t : PairwiseBinarySorter} :
      OReaches key s t →
      OReaches key s ((PairwiseBinarySorter.decide t (oracleChoice key t)).2)

/-- Order conditions carried by an open frame during an oracle-driven
binary search: everything strictly below `low` ranks at or above the
candidate, everything at or beyond `high` ranks at or below it. -/
def OFrame (key : Task → Nat) (so : List Task) (f : Frame) : Prop :=
  PairwiseBinarySorter.FrameOK so.length f ∧
  (∀ a ∈ so.take f.low, key a ≤ key f.cand) ∧
  (∀ a ∈ so.drop f.high, key f.cand ≤ key a)

/-- Invariant for oracle-driven runs: `sorted` is sorted by the key and
the (at most one) open frame brackets the candidate's position. -/
def OInv (key : Task → Nat) (s : PairwiseBinarySorter) : Prop :=
  s.frames.length ≤ 1 ∧
  s.sorted.Pairwise (fun a b => key a ≤ key b) ∧
  ∀ f ∈ s.frames, OFrame key s.sorted f

theorem pairwise_le_take_elem {key : Task → Nat} {so : List Task}
    (hp : so.Pairwise (fun a b => key a ≤ key b)) {i : Nat}
    (hi : i < so.length) : ∀ a ∈ so.take i, key a ≤ key so[i] := by
  intro a ha
  have hsplit : so = so.take i ++ so.drop i := (List.take_append_drop i so).symm
  have hcross := (List.pairwise_append.mp (hsplit ▸ hp)).2.2
  refine hcross a ha so[i] ?_
  rw [List.drop_eq_getElem_cons hi]
  exact List.mem_cons_self _ _

theorem pairwise_le_drop_elem {key : Task → Nat} {so : List Task}
    (hp : so.Pairwise (fun a b => key a ≤ key b)) {i : Nat}
    (hi : i < so.length) : ∀ a ∈ so.drop (i + 1), key so[i] ≤ key a := by
  intro a ha
  have hsplit : so = so.take (i + 1) ++ so.drop (i + 1) :=
    (List.take_append_drop (i + 1) so).symm
  have hcross := (List.pairwise_append.mp (hsplit ▸ hp)).2.2
  refine hcross so[i] ?_ a ha
  rw [List.take_succ, List.getElem?_eq_getElem hi]
  exact List.mem_append_right _ (List.mem_cons_self _ _)

theorem pairwise_insert_at {key : Task → Nat} {so : List Task} {c : Task}
    {i : Nat} (hp : so.Pairwise (fun a b => key a ≤ key b))
    (hlow : ∀ a ∈ so.take i, key a ≤ key c)
    (hhigh : ∀ a ∈ so.drop i, key c ≤ key a) :
    (so.take i ++ c :: so.drop i).Pairwise (fun a b => key a ≤ key b) := by
  have hsplit : so = so.take i ++ so.drop i := (List.take_append_drop i so).symm
  have hps := hsplit ▸ hp
  have h3 := List.pairwise_append.mp hps
  refine List.pairwise_append.mpr ⟨h3.1, ?_, ?_⟩
  · refine List.pairwise_cons.mpr ⟨hhigh, h3.2.1⟩
  · intro a ha b hb
    rcases List.mem_cons.mp hb with hb | hb
    · exact hb ▸ hlow a ha
    · exact h3.2.2 a ha b hb

theorem ocp_preserves (key : Task → Nat) {s : PairwiseBinarySorter}
    (h : OInv key s) : OInv key (PairwiseBinarySorter.current_pair s).st := by
  obtain ⟨so, rem, fr⟩ := s
  match fr with
  | f :: fs => rw [PairwiseBinarySorter.current_pair_frame]; exact h
  | [] =>
    match rem with
    | [] => rw [PairwiseBinarySorter.current_pair_nil_nil]; exact h
    | c :: rest =>
      by_cases hso : so = []
      · subst hso
        rw [PairwiseBinarySorter.current_pair_auto]
        match rest with
        | [] =>
          rw [PairwiseBinarySorter.current_pair_nil_nil]
          exact ⟨by simp, by simp, by simp⟩
        | d :: rest2 =>
          rw [PairwiseBinarySorter.current_pair_open _ _ _ (by simp)]
          refine ⟨by simp, by simp, ?_⟩
          intro f hf
          simp only [List.mem_singleton] at hf
          subst hf
          refine ⟨⟨by simp, by simp, by simp, by norm_num⟩, by simp, by simp⟩
      · rw [PairwiseBinarySorter.current_pair_open _ _ _ hso]
        refine ⟨by simp, h.2.1, ?_⟩
        intro f hf
        simp only [List.mem_singleton] at hf
        subst hf
        refine ⟨⟨Nat.zero_le _,
          Nat.div_lt_self (List.length_pos.mpr hso) (by norm_num),
          le_refl _, by simp⟩, by simp, by simp [List.drop_length]⟩

theorem odec_preserves (key : Task → Nat) {s : PairwiseBinarySorter}
    (h : OInv key s) :
    OInv key ((PairwiseBinarySorter.decide s (oracleChoice key s)).2) := by
  obtain ⟨so, rem, fr⟩ := s
  match fr with
  | [] => exact h
  | f :: fs =>
    have hfs : fs = [] := by
      have := h.1
      simp at this
      exact this
    subst hfs
    obtain ⟨hlen, hp, hof⟩ := h
    obtain ⟨⟨h1, h2, h3, h4⟩, hlow, hhigh⟩ := hof f (by simp)
    replace h3 : f.high ≤ so.length := h3
    replace hp : so.Pairwise (fun a b => key a ≤ key b) := hp
    replace hlow : ∀ a ∈ so.take f.low, key a ≤ key f.cand := hlow
    replace hhigh : ∀ a ∈ so.drop f.high, key f.cand ≤ key a := hhigh
    have hm : f.mid < so.length := lt_of_lt_of_le h2 h3
    have hprobe : so.getD f.mid default = so[f.mid] := List.getD_eq_getElem so default hm
    by_cases hcl : key f.cand < key so[f.mid]
    · have hb : oracleChoice key ⟨so, rem, [f]⟩ = true := by
        simp only [oracleChoice]
        rw [hprobe]
        exact decide_eq_true hcl
      rw [hb, PairwiseBinarySorter.decide_cons_true]
      have hcd : ∀ a ∈ so.drop f.mid, key f.cand ≤ key a := by
        intro a ha
        rw [List.drop_eq_getElem_cons hm] at ha
        rcases List.mem_cons.mp ha with rfl | ha
        · exact hcl.le
        · exact hcl.le.trans (pairwise_le_drop_elem hp hm a ha)
      by_cases hcmp : f.mid ≤ f.low
      · rw [if_pos hcmp]
        have hml : f.mid = f.low := le_antisymm hcmp h1
        refine ⟨by simp, ?_, by simp⟩
        simp only [pyInsert]
        exact pairwise_insert_at hp hlow (by rw [← hml]; exact hcd)
      · rw [if_neg hcmp]
        refine ⟨by simp, hp, ?_⟩
        intro g hg
        simp only [List.mem_singleton] at hg
        subst hg
        refine ⟨⟨?_, ?_, ?_, rfl⟩, hlow, hcd⟩
        · simp only
          omega
        · simp only
          omega
        · simp only
          omega
    · have hge : key so[f.mid] ≤ key f.cand := le_of_not_lt hcl
      have hb : oracleChoice key ⟨so, rem, [f]⟩ = false := by
        simp only [oracleChoice]
        rw [hprobe]
        exact decide_eq_false hcl
      rw [hb, PairwiseBinarySorter.decide_cons_false]
      have hct : ∀ a ∈ so.take (f.mid + 1), key a ≤ key f.cand := by
        intro a ha
        rw [List.take_succ, List.getElem?_eq_getElem hm] at ha
        rcases List.mem_append.mp ha with ha | ha
        · exact (pairwise_le_take_elem hp hm a ha).trans hge
        · have heq : a = so[f.mid] := by simpa using ha
          exact heq ▸ hge
      by_cases hcmp : f.high ≤ f.mid + 1
      · rw [if_pos hcmp]
        have hhe : f.high = f.mid + 1 := le_antisymm hcmp h2
        refine ⟨by simp, ?_, by simp⟩
        simp only [pyInsert]
        exact pairwise_insert_at hp hct (by rw [← hhe]; exact hhigh)
      · rw [if_neg hcmp]
        refine ⟨by simp, hp, ?_⟩
        intro g hg
        simp only [List.mem_singleton] at hg
        subst hg
        refine ⟨⟨?_, ?_, ?_, rfl⟩, hct, hhigh⟩
        · simp only
          omega
        · simp only
          omega
        · simp only
          omega

theorem oreaches_inv (key : Task → Nat) {s t : PairwiseBinarySorter}
    (hfr : s.frames = [])
    (hs : s.sorted.Pairwise (fun a b => key a ≤ key b))
    (h : OReaches key s t) : OInv key t := by
  induction h with
  | refl => exact ⟨by simp [hfr], hs, by simp [hfr]⟩
  | cp _ ih => exact ocp_preserves key ih
  | dec _ ih => exact odec_preserves key ih

/-- C5 (amended): (1) insertion correctness — when every decision is
made consistently with a total preorder given by a ranking key
(`oracleChoice`), every state reachable from an initial state whose
baseline is sorted by the key has its `ordered` sequence sorted by the
key; in particular the final order is consistent with all the pairwise
decisions made.  (2) comparison count — placing one new candidate
against an already-ordered prefix of size `m = i - 1 ≥ 1` takes *at
most* `ceil (log2 (m + 1)) = ceil (log2 i)` `decide` calls, for every
decision sequence (the original claim's "exactly" fails, see the
counterexample: a lopsided path can finish earlier).  (3) for `i = 1`
(empty prefix) the candidate is placed by `current_pair` itself with
zero comparisons, matching `ceil (log2 1) = 0`. -/
theorem C5_insertion_correctness_and_count :
    (∀ (key : Task → Nat) (s t : PairwiseBinarySorter),
        s.frames = [] →
        s.sorted.Pairwise (fun a b => key a ≤ key b) →
        OReaches key s t →
        t.sorted.Pairwise (fun a b => key a ≤ key b)) ∧
    (∀ (so rem : List Task) (ds : List Bool) (k : Nat) (c : Task)
        (s' : PairwiseBinarySorter), so ≠ [] →
        placeRun ⟨so, rem, []⟩ ds = some (k, c, s') →
        k ≤ Nat.clog 2 (so.length + 1)) ∧
    (∀ (c : Task) (rest : List Task),
        ((PairwiseBinarySorter.current_pair ⟨[], c :: rest, []⟩).st).sorted = [c]) :=
  ⟨fun key s t hfr hs h => (oreaches_inv key hfr hs h).2.1,
    fun so rem ds k c s' h hrun => placeRun_fresh_bound ds so rem k c s' h hrun,
    fun c rest => by
      rw [PairwiseBinarySorter.current_pair_auto]
      match rest with
      | [] => rw [PairwiseBinarySorter.current_pair_nil_nil]
      | d :: rest2 => rw [PairwiseBinarySorter.current_pair_open _ _ _ (by simp)]⟩

/-- Witness for C5: the sortedness part at a one-step oracle run from a
sorted two-element baseline, the count part at the concrete worst-case
run placing `c` into `[a]` (1 decision, `ceil (log2 2) = 1`), and the
zero-comparison part at a singleton pending queue. -/
theorem C5_witness :
    (PairwiseBinarySorter.current_pair
        ⟨[{ title := "a" }, { title := "b" }], [{ title := "c" }], []⟩).st.sorted.Pairwise
      (fun a b => a.title.length ≤ b.title.length) ∧
    1 ≤ Nat.clog 2 (([{ title := "a" }] : List Task).length + 1) ∧
    ((PairwiseBinarySorter.current_pair
        ⟨[], { title := "c" } :: [], []⟩).st).sorted = [{ title := "c" }] := by
  refine ⟨?_, ?_, ?_⟩
  · exact C5_insertion_correctness_and_count.1 (fun t => t.title.length) _ _ rfl
      (by decide) (OReaches.cp (OReaches.refl _))
  · exact C5_insertion_correctness_and_count.2.1 [{ title := "a" }] [{ title := "c" }]
      [true] 1 { title := "c" } ⟨[{ title := "c" }, { title := "a" }], [], []⟩
      (by decide) (by decide)
  · exact C5_insertion_correctness_and_count.2.2 { title := "c" } []

/-! ## Reconciliation (`RankingController._reconcile_sheet_with_google`,
src/pairwise_comparison.py lines 210-267)

The Python code mutates the matched sheet task objects in place, through
dictionaries that alias the entries of `baseline_roots` /
`baseline_children_by_title`.  Titles are never mutated, so we model the
alias dictionaries as maps from normalised title to the *index* of the
aliased entry (last writer wins, as in a dict comprehension), and a
merge as a functional update at that index. -/

/-- The merge of a matched live (Google) root onto its sheet root:
`id`, `task_list_id`, `position`, `list_title` are copied when the live
value is present; `_link` and `notes` are filled from the live item
only when the sheet value is blank. -/
def mergeRootFields (sr gr : Task) : Task :=
  let s1 := match gr.id with | some v => { sr with id := some v } | none => sr
  let s2 := match gr.task_list_id with
    | some v => { s1 with task_list_id := some v } | none => s1
  let s3 := match gr.pos with | some v => { s2 with pos := some v } | none => s2
  let s4 := match gr.list_title with
    | some v => { s3 with list_title := some v } | none => s3
  let s5 := if strip s4.link = "" then { s4 with link := strip gr.link } else s4
  if strip s5.notes = "" then { s5 with notes := strip gr.notes } else s5

/-- Same as `mergeRootFields` plus the `parent` key (the child loop
copies `("id", "task_list_id", "position", "list_title", "parent")`). -/
def mergeChildFields (sc gc : Task) : Task :=
  let s4 := mergeRootFields sc gc
  match gc.parent with | some v => { s4 with parent := some v } | none => s4

/-- `title_to_sheet_root` as an index map: normalised title → index of
the (last) sheet root bearing it; blank normalised titles are skipped. -/
def titleIndex (roots : List Task) : List (String × Nat) :=
  (List.range roots.length).foldl
    (fun m i =>
      let t := norm (roots.getD i default).title
      if t = "" then m else setA m t i) []

/-- The per-parent child index `{norm(title): child}` as an index map
(the dict comprehension keeps the last duplicate; rows whose stripped
title is blank are skipped). -/
def childIndex (lst : List Task) : List (String × Nat) :=
  (List.range lst.length).foldl
    (fun m j =>
      let cdef := lst.getD j default
      if strip cdef.title = "" then m else setA m (norm cdef.title) j) []

/-- Accumulator of the root loop: the (mutated) sheet roots, the
unmatched live roots in arrival order, and `parent_title_by_id`. -/
structure RootPhase where
  roots : List Task
  remainingRoots : List Task
  parentTitleById : List (String × String)
  deriving DecidableEq

/-- One iteration of the root loop (lines 224-242). -/
def rootStep (ti : List (String × Nat)) (a : RootPhase) (gr : Task) : RootPhase :=
  let nt := norm gr.title
  if nt = "" then a
  else
    match lookupA ti nt with
    | some i =>
      let sr := a.roots.getD i default
      let ptbi :=
        match gr.id with
        | some gid =>
          if gid = "" then a.parentTitleById else setA a.parentTitleById gid sr.title
        | none => a.parentTitleById
      ⟨a.roots.set i (mergeRootFields sr gr), a.remainingRoots, ptbi⟩
    | none =>
      let ptbi :=
        match gr.id with
        | some gid =>
          if gid = "" then a.parentTitleById else setA a.parentTitleById gid gr.title
        | none => a.parentTitleById
      ⟨a.roots, a.remainingRoots ++ [gr], ptbi⟩

def rootPhase (bR gR : List Task) : RootPhase :=
  gR.foldl (rootStep (titleIndex bR)) ⟨bR, [], []⟩

/-- Accumulator of the child loop: the (mutated) sheet children by
parent title, and the per-parent-id remaining live children. -/
structure ChildPhase where
  childrenByTitle : List (String × List Task)
  remainingChildren : List (String × List Task)
  deriving DecidableEq

/-- The ledger child index consulted for live parent id `pid`:
`children_index_by_parent_title.get(parent_title_by_id.get(pid, ""), {})`. -/
def childIdxFor (bC0 : List (String × List Task)) (ptbi : List (String × String))
    (pid : String) : List (String × Nat) :=
  match lookupA bC0 ((lookupA ptbi pid).getD "") with
  | some lst => childIndex lst
  | none => []

/-- One iteration of the child loop body (lines 253-265) for a live
child `gc` under live parent id `pid`. -/
def childStepGc (bC0 : List (String × List Task)) (ptbi : List (String × String))
    (pid : String) (a : ChildPhase) (gc : Task) : ChildPhase :=
  let ptitle := (lookupA ptbi pid).getD ""
  let idx := childIdxFor bC0 ptbi pid
  let nt := norm gc.title
  if nt = "" then ⟨a.childrenByTitle, appendA a.remainingChildren pid gc⟩
  else
    match lookupA idx nt with
    | some j =>
      let lst := (lookupA a.childrenByTitle ptitle).getD []
      ⟨setA a.childrenByTitle ptitle
          (lst.set j (mergeChildFields (lst.getD j default) gc)),
        a.remainingChildren⟩
    | none => ⟨a.childrenByTitle, appendA a.remainingChildren pid gc⟩

def childPhase (bC : List (String × List Task)) (ptbi : List (String × String))
    (gC : List (String × List Task)) : ChildPhase :=
  gC.foldl (fun a e => e.2.foldl (childStepGc bC ptbi e.1) a) ⟨bC, []⟩

/-- The full result of `_reconcile_sheet_with_google`: the merged
baselines (the in-place side effects on `self.baseline_roots` /
`self.baseline_children_by_title`), the two explicit return values, and
`parent_title_by_id`. -/
structure ReconcileResult where
  roots : List Task
  childrenByTitle : List (String × List Task)
  remainingRoots : List Task
  remainingChildren : List (String × List Task)
  parentTitleById : List (String × String)
  deriving DecidableEq

def reconcile (bR : List Task) (bC : List (String × List Task))
    (gR : List Task) (gC : List (String × List Task)) : ReconcileResult :=
  let rp := rootPhase bR gR
  let chp := childPhase bC rp.parentTitleById gC
  ⟨rp.roots, chp.childrenByTitle, rp.remainingRoots, chp.remainingChildren,
    rp.parentTitleById⟩

/-! ### Association-list and index lemmas -/

theorem foldl_induction {α β : Type} (step : α → β → α) (P : α → Prop) :
    ∀ (l : List β) (init : α), P init →
      (∀ acc x, x ∈ l → P acc → P (step acc x)) → P (l.foldl step init)
  | [], init, h0, _ => h0
  | x :: rest, init, h0, hstep => by
    simp only [List.foldl_cons]
    exact foldl_induction step P rest (step init x) (hstep init x (by simp) h0)
      (fun acc y hy hacc => hstep acc y (by simp [hy]) hacc)

theorem lookupA_setA_self {α : Type} (m : List (String × α)) (k : String) (v : α) :
    lookupA (setA m k v) k = some v := by
  induction m with
  | nil => simp [setA, lookupA]
  | cons e rest ih =>
    obtain ⟨k', w⟩ := e
    by_cases h : k' = k
    · simp [setA, lookupA, h]
    · simp [setA, lookupA, h, ih]

theorem lookupA_setA_ne {α : Type} (m : List (String × α)) (k k' : String) (v : α)
    (h : k' ≠ k) : lookupA (setA m k v) k' = lookupA m k' := by
  have h2 : ¬ k = k' := fun hh => h hh.symm
  induction m with
  | nil => simp [setA, lookupA, h2]
  | cons e rest ih =>
    obtain ⟨k0, w⟩ := e
    by_cases h0 : k0 = k
    · subst h0
      simp [setA, lookupA, h2]
    · simp only [setA, h0, if_false, lookupA]
      by_cases h1 : k0 = k'
      · simp [h1]
      · simp [h1, ih]

theorem lookupA_appendA_self {α : Type} (m : List (String × List α)) (k : String)
    (x : α) :
    lookupA (appendA m k x) k = some ((lookupA m k).getD [] ++ [x]) := by
  induction m with
  | nil => simp [appendA, lookupA]
  | cons e rest ih =>
    obtain ⟨k0, w⟩ := e
    by_cases h0 : k0 = k
    · simp [appendA, lookupA, h0]
    · simp [appendA, lookupA, h0, ih]

theorem lookupA_appendA_ne {α : Type} (m : List (String × List α)) (k k' : String)
    (x : α) (h : k' ≠ k) : lookupA (appendA m k x) k' = lookupA m k' := by
  have h2 : ¬ k = k' := fun hh => h hh.symm
  induction m with
  | nil => simp [appendA, lookupA, h2]
  | cons e rest ih =>
    obtain ⟨k0, w⟩ := e
    by_cases h0 : k0 = k
    · subst h0
      simp [appendA, lookupA, h2]
    · simp only [appendA, h0, if_false, lookupA]
      by_cases h1 : k0 = k'
      · simp [h1]
      · simp [h1, ih]

theorem lookupA_isSome_setA {α : Type} (m : List (String × α)) (k k' : String)
    (v : α) (h : (lookupA m k').isSome) : (lookupA (setA m k v) k').isSome := by
  by_cases hk : k' = k
  · subst hk
    simp [lookupA_setA_self]
  · rwa [lookupA_setA_ne m k k' v hk]

theorem titleIndex_sound (roots : List Task) :
    ∀ nt i, lookupA (titleIndex roots) nt = some i →
      i < roots.length ∧ norm (roots.getD i default).title = nt ∧ nt ≠ "" := by
  unfold titleIndex
  refine foldl_induction _
    (fun m => ∀ nt i, lookupA m nt = some i →
      i < roots.length ∧ norm (roots.getD i default).title = nt ∧ nt ≠ "") _ _
    ?_ ?_
  · intro nt i h
    simp [lookupA] at h
  · intro m j hj hm nt i h
    simp only at h
    by_cases hne : norm (roots.getD j default).title = ""
    · rw [if_pos hne] at h
      exact hm nt i h
    · rw [if_neg hne] at h
      by_cases hk : nt = norm (roots.getD j default).title
      · subst hk
        rw [lookupA_setA_self] at h
        obtain rfl : j = i := by simpa using h
        exact ⟨List.mem_range.mp hj, rfl, hne⟩
      · rw [lookupA_setA_ne _ _ _ _ hk] at h
        exact hm nt i h

theorem titleIndex_complete (roots : List Task) (r : Task) (hr : r ∈ roots)
    (hn : norm r.title ≠ "") :
    (lookupA (titleIndex roots) (norm r.title)).isSome := by
  obtain ⟨j, hj, hget⟩ := List.mem_iff_getElem.mp hr
  have hjd : roots[j]?.getD default = r := by
    rw [List.getElem?_eq_getElem hj]
    simpa using hget
  have hmem : j ∈ List.range roots.length := List.mem_range.mpr hj
  unfold titleIndex
  have main : ∀ (idxs : List Nat) (m0 : List (String × Nat)),
      j ∈ idxs ∨ (lookupA m0 (norm r.title)).isSome →
      (lookupA (idxs.foldl
        (fun m i =>
          let t := norm (roots.getD i default).title
          if t = "" then m else setA m t i) m0) (norm r.title)).isSome := by
    intro idxs
    induction idxs with
    | nil =>
      intro m0 h
      rcases h with h | h
      · simp at h
      · exact h
    | cons a rest ih =>
      intro m0 h
      simp only [List.foldl_cons]
      rcases h with h | h
      · rcases List.mem_cons.mp h with rfl | h
        · refine ih _ (Or.inr ?_)
          simp [hjd, hn, lookupA_setA_self]
        · exact ih _ (Or.inl h)
      · refine ih _ (Or.inr ?_)
        by_cases hc : norm (roots[a]?.getD default).title = ""
        · simpa [hc] using h
        · simp [hc]
          exact lookupA_isSome_setA _ _ _ _ h
  exact main (List.range roots.length) [] (Or.inl hmem)

theorem childIndex_complete (lst : List Task) (sc : Task) (hr : sc ∈ lst)
    (hn : strip sc.title ≠ "") :
    (lookupA (childIndex lst) (norm sc.title)).isSome := by
  obtain ⟨j, hj, hget⟩ := List.mem_iff_getElem.mp hr
  have hjd : lst[j]?.getD default = sc := by
    rw [List.getElem?_eq_getElem hj]
    simpa using hget
  have hmem : j ∈ List.range lst.length := List.mem_range.mpr hj
  unfold childIndex
  have main : ∀ (idxs : List Nat) (m0 : List (String × Nat)),
      j ∈ idxs ∨ (lookupA m0 (norm sc.title)).isSome →
      (lookupA (idxs.foldl
        (fun m i =>
          let cdef := lst.getD i default
          if strip cdef.title = "" then m else setA m (norm cdef.title) i) m0)
        (norm sc.title)).isSome := by
    intro idxs
    induction idxs with
    | nil =>
      intro m0 h
      rcases h with h | h
      · simp at h
      · exact h
    | cons a rest ih =>
      intro m0 h
      simp only [List.foldl_cons]
      rcases h with h | h
      · rcases List.mem_cons.mp h with rfl | h
        · refine ih _ (Or.inr ?_)
          simp [hjd, hn, lookupA_setA_self]
        · exact ih _ (Or.inl h)
      · refine ih _ (Or.inr ?_)
        by_cases hc : strip (lst[a]?.getD default).title = ""
        · simpa [hc] using h
        · simp [hc]
          exact lookupA_isSome_setA _ _ _ _ h
  exact main (List.range lst.length) [] (Or.inl hmem)

/-! ### Root-phase lemmas -/

theorem mergeRootFields_title (sr gr : Task) :
    (mergeRootFields sr gr).title = sr.title := by
  unfold mergeRootFields
  cases gr.id <;> cases gr.task_list_id <;> cases gr.pos <;> cases gr.list_title <;>
    simp only <;> split <;> split <;> rfl

theorem set_map_title_self (l : List Task) (i : Nat) (h : i < l.length) :
    (l.map Task.title).set i l[i].title = l.map Task.title := by
  apply List.ext_getElem (by simp)
  intro j h1 h2
  simp only [List.getElem_set, List.getElem_map]
  split
  · rename_i hij
    subst hij
    rfl
  · rfl

theorem title_getD_eq (l1 l2 : List Task)
    (ht : l1.map Task.title = l2.map Task.title) (i : Nat)
    (h1 : i < l1.length) (h2 : i < l2.length) :
    (l1.getD i default).title = (l2.getD i default).title := by
  have h := congrArg (fun l => l.getD i "") ht
  simp only at h
  rw [List.getD_eq_getElem _ _ (by simpa using h1),
    List.getD_eq_getElem _ _ (by simpa using h2)] at h
  rw [List.getD_eq_getElem l1 default h1, List.getD_eq_getElem l2 default h2]
  simpa [List.getElem_map] using h

theorem rootStep_titles (bR : List Task) (a : RootPhase) (gr : Task)
    (ht : a.roots.map Task.title = bR.map Task.title) :
    (rootStep (titleIndex bR) a gr).roots.map Task.title = bR.map Task.title := by
  have hlen : a.roots.length = bR.length := by
    have := congrArg List.length ht
    simpa using this
  unfold rootStep
  by_cases h0 : norm gr.title = ""
  · simp [h0, ht]
  · rw [if_neg h0]
    cases hl : lookupA (titleIndex bR) (norm gr.title) with
    | none => simpa using ht
    | some i =>
      have hsound := titleIndex_sound bR _ _ hl
      have hia : i < a.roots.length := hlen ▸ hsound.1
      simp only [List.map_set, mergeRootFields_title]
      rw [show (a.roots.getD i default).title = a.roots[i].title from by
        rw [List.getD_eq_getElem a.roots default hia]]
      rw [set_map_title_self a.roots i hia]
      exact ht

theorem rootPhase_titles (bR gR : List Task) :
    (rootPhase bR gR).roots.map Task.title = bR.map Task.title := by
  unfold rootPhase
  refine foldl_induction _ (fun a : RootPhase => a.roots.map Task.title = bR.map Task.title)
    _ _ rfl ?_
  intro a gr _ ha
  exact rootStep_titles bR a gr ha

theorem rootPhase_remaining_nil (bR gR : List Task)
    (h : ∀ gr ∈ gR, norm gr.title ≠ "" →
      (lookupA (titleIndex bR) (norm gr.title)).isSome) :
    (rootPhase bR gR).remainingRoots = [] := by
  unfold rootPhase
  refine foldl_induction _ (fun a : RootPhase => a.remainingRoots = []) _ _ rfl ?_
  intro a gr hgr ha
  unfold rootStep
  by_cases h0 : norm gr.title = ""
  · simp [h0, ha]
  · rw [if_neg h0]
    cases hl : lookupA (titleIndex bR) (norm gr.title) with
    | none =>
      exfalso
      have := h gr hgr h0
      rw [hl] at this
      simp at this
    | some i => simpa using ha

/-- The "resolved title" of a live root: the matched sheet root's title
when the normalised titles collide (the ledger copy addresses the
children), else the live title itself — the value
`parent_title_by_id[gr.id]` records. -/
def resolvedParentTitle (bR : List Task) (gr : Task) : String :=
  match lookupA (titleIndex bR) (norm gr.title) with
  | some i => (bR.getD i default).title
  | none => gr.title

theorem rootStep_ptbi_other (ti : List (String × Nat)) (a : RootPhase)
    (g : Task) (pid : String) (hg : g.id ≠ some pid) :
    lookupA (rootStep ti a g).parentTitleById pid =
      lookupA a.parentTitleById pid := by
  unfold rootStep
  by_cases h0 : norm g.title = ""
  · simp [h0]
  · rw [if_neg h0]
    cases hl : lookupA ti (norm g.title) with
    | none =>
      cases hid : g.id with
      | none => simp
      | some gid =>
        have : gid ≠ pid := fun hh => hg (by rw [hid, hh])
        by_cases hge : gid = ""
        · simp [hge]
        · simp only [if_neg hge]
          exact lookupA_setA_ne _ _ _ _ (fun hh => this hh.symm)
    | some i =>
      cases hid : g.id with
      | none => simp
      | some gid =>
        have : gid ≠ pid := fun hh => hg (by rw [hid, hh])
        by_cases hge : gid = ""
        · simp [hge]
        · simp only [if_neg hge]
          exact lookupA_setA_ne _ _ _ _ (fun hh => this hh.symm)

theorem fold_ptbi_other (bR : List Task) :
    ∀ (grs : List Task) (a : RootPhase) (pid : String),
      (∀ g ∈ grs, g.id ≠ some pid) →
      lookupA ((grs.foldl (rootStep (titleIndex bR)) a).parentTitleById) pid =
        lookupA a.parentTitleById pid
  | [], a, pid, _ => rfl
  | g0 :: rest, a, pid, h => by
    simp only [List.foldl_cons]
    rw [fold_ptbi_other bR rest _ pid (fun g hg => h g (by simp [hg]))]
    exact rootStep_ptbi_other _ a g0 pid (h g0 (by simp))

theorem rootPhase_ptbi (bR : List Task) :
    ∀ (grs : List Task) (a : RootPhase) (gr : Task) (pid : String),
      a.roots.map Task.title = bR.map Task.title →
      gr ∈ grs → gr.id = some pid → pid ≠ "" → norm gr.title ≠ "" →
      (grs.filterMap Task.id).Nodup →
      lookupA ((grs.foldl (rootStep (titleIndex bR)) a).parentTitleById) pid =
        some (resolvedParentTitle bR gr)
  | [], a, gr, pid, _, hmem, _, _, _, _ => absurd hmem (by simp)
  | g0 :: rest, a, gr, pid, htitles, hmem, hid, hpid, hnt, hnodup => by
    have hlen : a.roots.length = bR.length := by
      have := congrArg List.length htitles
      simpa using this
    simp only [List.foldl_cons]
    rcases List.mem_cons.mp hmem with rfl | hmem2
    · have hrest : ∀ g ∈ rest, g.id ≠ some pid := by
        intro g hg hgid
        have hfm : (gr :: rest).filterMap Task.id = pid :: rest.filterMap Task.id := by
          rw [List.filterMap_cons_some hid]
        rw [hfm] at hnodup
        have hpidmem : pid ∈ rest.filterMap Task.id :=
          List.mem_filterMap.mpr ⟨g, hg, hgid⟩
        exact (List.nodup_cons.mp hnodup).1 hpidmem
      rw [fold_ptbi_other bR rest _ pid hrest]
      unfold rootStep
      rw [if_neg hnt]
      unfold resolvedParentTitle
      cases hl : lookupA (titleIndex bR) (norm gr.title) with
      | none =>
        simp only [hid, if_neg hpid]
        rw [lookupA_setA_self]
      | some i =>
        have hsound := titleIndex_sound bR _ _ hl
        have hia : i < a.roots.length := hlen ▸ hsound.1
        simp only [hid, if_neg hpid]
        rw [lookupA_setA_self]
        rw [title_getD_eq a.roots bR htitles i hia hsound.1]
    · have hnodup2 : (rest.filterMap Task.id).Nodup := by
        cases h0 : g0.id with
        | none => rwa [List.filterMap_cons_none h0] at hnodup
        | some v =>
          rw [List.filterMap_cons_some h0] at hnodup
          exact (List.nodup_cons.mp hnodup).2
      exact rootPhase_ptbi bR rest _ gr pid
        (rootStep_titles bR a g0 htitles) hmem2 hid hpid hnt hnodup2

/-! ### Child-phase lemmas -/

theorem childStepGc_remaining (bC0 : List (String × List Task))
    (ptbi : List (String × String)) (pid : String) (a : ChildPhase) (gc : Task)
    (hnt : norm gc.title ≠ "")
    (hhit : (lookupA (childIdxFor bC0 ptbi pid) (norm gc.title)).isSome) :
    (childStepGc bC0 ptbi pid a gc).remainingChildren = a.remainingChildren := by
  unfold childStepGc
  rw [if_neg hnt]
  cases hl : lookupA (childIdxFor bC0 ptbi pid) (norm gc.title) with
  | none => rw [hl] at hhit; simp at hhit
  | some j => simp

theorem childPhase_remaining_nil (bC : List (String × List Task))
    (ptbi : List (String × String)) (gC : List (String × List Task))
    (h : ∀ pid glist, (pid, glist) ∈ gC → ∀ gc ∈ glist,
      norm gc.title ≠ "" ∧
      (lookupA (childIdxFor bC ptbi pid) (norm gc.title)).isSome) :
    (childPhase bC ptbi gC).remainingChildren = [] := by
  unfold childPhase
  refine foldl_induction _ (fun a : ChildPhase => a.remainingChildren = []) _ _
    rfl ?_
  intro a e he ha
  obtain ⟨pid, glist⟩ := e
  simp only
  refine foldl_induction _ (fun a : ChildPhase => a.remainingChildren = []) _ _
    ha ?_
  intro a2 gc hgc ha2
  have hh := h pid glist he gc hgc
  rw [childStepGc_remaining bC ptbi pid a2 gc hh.1 hh.2]
  exact ha2

/-- C6: reconciling a ledger snapshot against a live snapshot with
identical (normalised) titles — every live root's normalised title
occurs among the ledger roots (h2), all live titles normalise to
non-blank (h1, guaranteed by the live-source loader which filters blank
titles), live ids are distinct (h3) and every live child group belongs
to a live root (h4) whose resolved ledger child group contains a child
with the same normalised title (h5) — yields an empty remaining-roots
list and an empty remaining-children map: every live item is matched
and merged, none is left to rank. -/
theorem C6_resumability (bR : List Task) (bC : List (String × List Task))
    (gR : List Task) (gC : List (String × List Task))
    (h1 : ∀ gr ∈ gR, norm gr.title ≠ "")
    (h2 : ∀ gr ∈ gR, ∃ r ∈ bR, norm r.title = norm gr.title)
    (h3 : (gR.filterMap Task.id).Nodup)
    (h4 : ∀ e ∈ gC, e.1 ≠ "" ∧ ∃ gr ∈ gR, gr.id = some e.1)
    (h5 : ∀ e ∈ gC, ∀ gr ∈ gR, gr.id = some e.1 →
      ∀ gc ∈ e.2, norm gc.title ≠ "" ∧
        ∃ sc ∈ (lookupA bC (resolvedParentTitle bR gr)).getD [],
          strip sc.title ≠ "" ∧ norm sc.title = norm gc.title) :
    (reconcile bR bC gR gC).remainingRoots = [] ∧
    (reconcile bR bC gR gC).remainingChildren = [] := by
  constructor
  · show (rootPhase bR gR).remainingRoots = []
    apply rootPhase_remaining_nil
    intro gr hgr hnt
    obtain ⟨r, hrmem, hr⟩ := h2 gr hgr
    rw [← hr]
    exact titleIndex_complete bR r hrmem (by rw [hr]; exact hnt)
  · show (childPhase bC (rootPhase bR gR).parentTitleById gC).remainingChildren = []
    apply childPhase_remaining_nil
    intro pid glist hmem gc hgc
    obtain ⟨hpid, gr, hgrmem, hgrid⟩ := h4 (pid, glist) hmem
    obtain ⟨hnt, sc, hscmem, hscstrip, hscnorm⟩ :=
      h5 (pid, glist) hmem gr hgrmem hgrid gc hgc
    refine ⟨hnt, ?_⟩
    have hptbi : lookupA (rootPhase bR gR).parentTitleById pid =
        some (resolvedParentTitle bR gr) :=
      rootPhase_ptbi bR gR ⟨bR, [], []⟩ gr pid rfl hgrmem hgrid hpid
        (h1 gr hgrmem) h3
    unfold childIdxFor
    rw [hptbi]
    simp only [Option.getD_some]
    cases hbc : lookupA bC (resolvedParentTitle bR gr) with
    | none =>
      rw [hbc] at hscmem
      simp at hscmem
    | some lst =>
      rw [hbc] at hscmem
      simp only [Option.getD_some] at hscmem
      rw [← hscnorm]
      exact childIndex_complete lst sc hscmem hscstrip

/-- Witness for C6 at a concrete identical snapshot: ledger roots
`X, Y` with one child `xc` under `X`; the live snapshot carries the
same titles with ids attached. -/
theorem C6_witness :
    (reconcile [{ title := "X" }, { title := "Y" }] [("X", [{ title := "xc" }])]
      [{ title := "X", id := some "x1" }, { title := "Y", id := some "y1" }]
      [("x1", [{ title := "xc", id := some "xc1", parent := some "x1" }])]).remainingRoots = [] ∧
    (reconcile [{ title := "X" }, { title := "Y" }] [("X", [{ title := "xc" }])]
      [{ title := "X", id := some "x1" }, { title := "Y", id := some "y1" }]
      [("x1", [{ title := "xc", id := some "xc1", parent := some "x1" }])]).remainingChildren = [] :=
  C6_resumability _ _ _ _ (by decide) (by decide) (by decide) (by decide) (by decide)

/-! ## C7: the ledger/live scenario -/

/-- Live root "A" of the scenario (matches ledger root "A"). -/
def c7LiveA : Task :=
  { title := "A", id := some "a1", task_list_id := some "L", pos := some "p1",
    list_title := some "lst" }

/-- Live root "C" of the scenario (unmatched). -/
def c7LiveC : Task :=
  { title := "C", id := some "c1", task_list_id := some "L", pos := some "p2",
    list_title := some "lst" }

/-- Reconciling ledger roots `["A","B"]` with live roots `["A","C"]`. -/
def c7Recon : ReconcileResult :=
  reconcile [{ title := "A" }, { title := "B" }] [] [c7LiveA, c7LiveC] []

/-- The root sorter the controller builds from that reconciliation. -/
def c7Sorter : PairwiseBinarySorter := ⟨c7Recon.roots, c7Recon.remainingRoots, []⟩

/-- C7 (counterexample): the reconciliation part of the claim holds
(`bootstrapRoots = ["A","B"]`, `remainingRoots = ["C"]`), but "after
one decision placing C above A, ordered = [C,A,B]" does not: the first
pair offered compares C against probe `ordered[1] = B` (not A), one
left decision does not place C (it refines the frame; `ordered` is
still `[A,B]`), and one right decision places C *last*
(`["A","B","C"]`).  No single decision can yield `["C","A","B"]`. -/
theorem C7_counterexample_one_decision :
    c7Recon.roots.map Task.title = ["A", "B"] ∧
    c7Recon.remainingRoots.map Task.title = ["C"] ∧
    (PairwiseBinarySorter.current_pair c7Sorter).pair =
        some (c7LiveC, { title := "B" }) ∧
    (PairwiseBinarySorter.decide
      (PairwiseBinarySorter.current_pair c7Sorter).st true).1 = none ∧
    ((PairwiseBinarySorter.decide
      (PairwiseBinarySorter.current_pair c7Sorter).st true).2).sorted.map
        Task.title = ["A", "B"] ∧
    ((PairwiseBinarySorter.decide
      (PairwiseBinarySorter.current_pair c7Sorter).st false).2).sorted.map
        Task.title = ["A", "B", "C"] ∧
    (["A", "B"] : List String) ≠ ["C", "A", "B"] ∧
    (["A", "B", "C"] : List String) ≠ ["C", "A", "B"] := by
  decide

/-- C7 (amended): with ledger roots `["A","B"]` and live roots
`["A","C"]`, reconciliation yields `bootstrapRoots = ["A","B"]`
(with "A" merged: it absorbs the live id) and `remainingRoots =
["C"]`; the sorter first offers C against `B = ordered[1]`, and after
*two* decisions placing "C" above "B" and then above "A", the ordered
sequence equals `["C","A","B"]`. -/
theorem C7_amended_two_decisions :
    c7Recon.roots.map Task.title = ["A", "B"] ∧
    (c7Recon.roots.map Task.id) = [some "a1", none] ∧
    c7Recon.remainingRoots = [c7LiveC] ∧
    ((PairwiseBinarySorter.decide (PairwiseBinarySorter.current_pair
        ((PairwiseBinarySorter.decide (PairwiseBinarySorter.current_pair
          c7Sorter).st true).2)).st true).2).sorted.map Task.title =
      ["C", "A", "B"] := by
  decide

/-! ## C8: duplicate normalised keys under one parent -/

/-- First live child with normalised key "s". -/
def c8Dup1 : Task := { title := "s", id := some "i1", parent := some "p1" }

/-- Second, distinct live child with the same normalised key "s". -/
def c8Dup2 : Task := { title := "S", id := some "i2", parent := some "p1" }

/-- Reconciling one ledger parent "P" with one ledger child "s" against
a live snapshot whose parent "P" has the two duplicate-keyed children. -/
def c8Recon : ReconcileResult :=
  reconcile [{ title := "P" }] [("P", [{ title := "s" }])]
    [{ title := "P", id := some "p1" }] [("p1", [c8Dup1, c8Dup2])]

/-- C8 (counterexample): two distinct live children under one parent
normalise to the same key, and the ledger holds a matching child.  The
claim says the first-seen live item wins the match and the later one
falls through to the remaining set.  In the code the matching index is
never updated during the loop, so the *later* item also matches and is
merged onto the same ledger child (its fields overwriting the
earlier's: the merged ledger child carries id "i2"), and the
remaining-children map stays empty — nothing falls through. -/
theorem C8_counterexample_duplicate_children :
    c8Dup1 ≠ c8Dup2 ∧
    norm c8Dup1.title = norm c8Dup2.title ∧
    norm ({ title := "s" } : Task).title = norm c8Dup2.title ∧
    c8Recon.remainingChildren = [] ∧
    c8Recon.childrenByTitle =
      [("P", [{ title := "s", id := some "i2", parent := some "p1" }])] := by
  decide

/-- C8 (amended): whenever a live child's normalised key has a match in
the ledger index consulted for its parent id (a ledger child with the
same normalised key under the resolved parent title), that live child
is merged and never falls through to the remaining set — in particular
a *later* duplicate-keyed live item also merges onto the same ledger
item rather than remaining; the concrete conjuncts show the later
duplicate's fields overwrite the earlier's (the shared ledger child
ends up with id "i2") and the remaining map stays empty. -/
theorem C8_duplicate_key_policy :
    (∀ (bR : List Task) (bC : List (String × List Task)) (gR : List Task)
        (gC : List (String × List Task)) (pid : String) (gc : Task),
      norm gc.title ≠ "" →
      (∃ sc ∈ (lookupA bC
          ((lookupA (rootPhase bR gR).parentTitleById pid).getD "")).getD [],
        strip sc.title ≠ "" ∧ norm sc.title = norm gc.title) →
      ∀ l, lookupA (reconcile bR bC gR gC).remainingChildren pid = some l →
        gc ∉ l) ∧
    c8Recon.remainingChildren = [] ∧
    c8Recon.childrenByTitle =
      [("P", [{ title := "s", id := some "i2", parent := some "p1" }])] := by
  refine ⟨?_, by decide, by decide⟩
  intro bR bC gR gC pid gc hnt hhit
  have hidx : (lookupA (childIdxFor bC (rootPhase bR gR).parentTitleById pid)
      (norm gc.title)).isSome := by
    unfold childIdxFor
    cases hbc : lookupA bC ((lookupA (rootPhase bR gR).parentTitleById pid).getD "") with
    | none =>
      obtain ⟨sc, hscmem, _⟩ := hhit
      rw [hbc] at hscmem
      simp at hscmem
    | some lst =>
      obtain ⟨sc, hscmem, hscstrip, hscnorm⟩ := hhit
      rw [hbc] at hscmem
      simp only [Option.getD_some] at hscmem
      rw [← hscnorm]
      exact childIndex_complete lst sc hscmem hscstrip
  show ∀ l, lookupA (childPhase bC (rootPhase bR gR).parentTitleById gC).remainingChildren
      pid = some l → gc ∉ l
  generalize (rootPhase bR gR).parentTitleById = ptbi at hidx ⊢
  unfold childPhase
  refine foldl_induction _
    (fun a : ChildPhase => ∀ l, lookupA a.remainingChildren pid = some l → gc ∉ l)
    _ _ (by intro l h; simp [lookupA] at h) ?_
  intro a e _ ha
  obtain ⟨pid2, glist2⟩ := e
  simp only
  refine foldl_induction _
    (fun a : ChildPhase => ∀ l, lookupA a.remainingChildren pid = some l → gc ∉ l)
    _ _ ha ?_
  intro a2 gc2 _ ha2
  unfold childStepGc
  by_cases hnt2 : norm gc2.title = ""
  · rw [if_pos hnt2]
    intro l hl hgcl
    by_cases hpp : pid = pid2
    · subst hpp
      rw [lookupA_appendA_self] at hl
      obtain rfl : l = (lookupA a2.remainingChildren pid).getD [] ++ [gc2] := by
        simpa using hl.symm
      rcases List.mem_append.mp hgcl with hgcl | hgcl
      · cases hrem : lookupA a2.remainingChildren pid with
        | none => rw [hrem] at hgcl; simp at hgcl
        | some old =>
          rw [hrem] at hgcl
          exact ha2 old hrem (by simpa using hgcl)
      · obtain rfl : gc = gc2 := by simpa using hgcl
        exact hnt (by rw [hnt2])
    · rw [lookupA_appendA_ne _ _ _ _ hpp] at hl
      exact ha2 l hl hgcl
  · rw [if_neg hnt2]
    cases hli : lookupA (childIdxFor bC ptbi pid2) (norm gc2.title) with
    | some j => simpa using ha2
    | none =>
      simp only
      intro l hl hgcl
      by_cases hpp : pid = pid2
      · subst hpp
        rw [lookupA_appendA_self] at hl
        obtain rfl : l = (lookupA a2.remainingChildren pid).getD [] ++ [gc2] := by
          simpa using hl.symm
        rcases List.mem_append.mp hgcl with hgcl | hgcl
        · cases hrem : lookupA a2.remainingChildren pid with
          | none => rw [hrem] at hgcl; simp at hgcl
          | some old =>
            rw [hrem] at hgcl
            exact ha2 old hrem (by simpa using hgcl)
        · obtain rfl : gc = gc2 := by simpa using hgcl
          rw [hli] at hidx
          simp at hidx
      · rw [lookupA_appendA_ne _ _ _ _ hpp] at hl
        exact ha2 l hl hgcl

/-- Witness for C8's amended theorem: the later duplicate `c8Dup2` of
the concrete scenario is never in the remaining set for parent "p1". -/
theorem C8_witness :
    ∀ l, lookupA (reconcile [{ title := "P" }] [("P", [{ title := "s" }])]
      [{ title := "P", id := some "p1" }]
      [("p1", [c8Dup1, c8Dup2])]).remainingChildren "p1" = some l →
      c8Dup2 ∉ l :=
  C8_duplicate_key_policy.1 _ _ _ _ "p1" c8Dup2 (by decide) (by decide)

/-! ## The ledger client (`SheetsClient`, src/sheets_api.py)

A stored sheet is its grid of cell values: a list of rows, each a list
of strings, row 0 being the header.  `write_full_state` reads the
existing state, computes the full replacement grid, and only then
clears and rewrites the tab; every `raise` in the source happens before
the `clear_values`/`update` calls, so an error leaves the stored grid
untouched (modelled by `applyWriteFullState`). -/

def HEADER : List String :=
  ["Status", "Category", "Title", "Parent Title", "Description", "Effort",
    "Joy", "Link"]

/-- `(r + [""] * 8)[:8]`. -/
def pad8 (r : List String) : List String := (r ++ List.replicate 8 "").take 8

/-- Cell `i` of a padded row. -/
def cell (r : List String) (i : Nat) : String := (pad8 r).getD i ""

/-- `_require_header_or_fail`: raise unless row 0 equals the canonical
header; on success the whole grid is returned. -/
def require_header_or_fail (sheet : List (List String)) :
    Except String (List (List String)) :=
  match sheet with
  | [] => .error "Unexpected header"
  | row0 :: _ => if row0 = HEADER then .ok sheet else .error "Unexpected header"

/-- `read_full_state` (lines 293-332): parse body rows into root tasks
(blank Parent Title) and children grouped by parent title; rows whose
stripped Title is blank are skipped. -/
def parseBody (body : List (List String)) :
    List Task × List (String × List Task) :=
  body.foldl
    (fun (acc : List Task × List (String × List Task)) r =>
      let title := strip (cell r 2)
      let ptitle := strip (cell r 3)
      if title = "" then acc
      else
        let task : Task :=
          { title := title, notes := cell r 4, link := strip (cell r 7),
            category := strip (cell r 1), effort := strip (cell r 5),
            joy := strip (cell r 6) }
        if ptitle = "" then (acc.1 ++ [task], acc.2)
        else (acc.1, appendA acc.2 ptitle task))
    ([], [])

def read_full_state (sheet : List (List String)) :
    Except String (List Task × List (String × List Task)) :=
  match require_header_or_fail sheet with
  | .error e => .error e
  | .ok rows => .ok (parseBody (rows.drop 1))

/-- `_read_existing_preserve_map` as a lookup:
`(Parent Title, Title) → (Status, Category, Effort, Joy)` over the body
rows, later rows overwriting earlier ones, default all-blank. -/
def preserveLookup (body : List (List String)) (pt t : String) :
    String × String × String × String :=
  body.foldl
    (fun acc r =>
      let title := strip (cell r 2)
      if title ≠ "" ∧ strip (cell r 3) = pt ∧ title = t then
        (strip (cell r 0), strip (cell r 1), strip (cell r 5), strip (cell r 6))
      else acc)
    ("", "", "", "")

/-- The preserve map `write_full_state` consults. -/
def preserveOf (sheet : List (List String)) :
    String → String → String × String × String × String :=
  preserveLookup (sheet.drop 1)

/-- The existing children (by parent title) `write_full_state` reads. -/
def existingChildrenOf (sheet : List (List String)) :
    List (String × List Task) :=
  match read_full_state sheet with
  | .ok p => p.2
  | .error _ => []

/-- `_dedupe_desc_link`: blank the description when it equals the link. -/
def dedupeDescLink (desc link : String) : String × String :=
  let d := strip desc
  let l := strip link
  (if d ≠ "" ∧ l ≠ "" ∧ d = l then "" else d, l)

/-- `row_for` (lines 390-409): render one task as an 8-cell row,
indenting subtask titles, deduplicating description/link, and reusing
the previous Status/Category/Effort/Joy when the new values are blank. -/
def rowFor (pm : String → String → String × String × String × String)
    (task : Task) (parent_title : String) : List String :=
  let raw_title := strip task.title
  let title := if parent_title ≠ "" then "  " ++ raw_title else raw_title
  let dl := dedupeDescLink (strip task.notes) (strip task.link)
  let prev := pm (strip parent_title) raw_title
  let status := prev.1
  let category := if strip task.category = "" then prev.2.1 else strip task.category
  let effort := if strip task.effort = "" then prev.2.2.1 else strip task.effort
  let joy := if strip task.joy = "" then prev.2.2.2 else strip task.joy
  [status, category, title, parent_title, dl.1, effort, joy, dl.2]

/-- The dedup-by-normalised-title loop (`seen` threaded through so the
carried-forward pass continues the same set). -/
def dedupeStep (acc : List Task × List String) (ch : Task) :
    List Task × List String :=
  let nt := norm ch.title
  if nt = "" ∨ nt ∈ acc.2 then acc else (acc.1 ++ [ch], nt :: acc.2)

def dedupeByNormTitle (chs : List Task) (seen0 : List String) :
    List Task × List String :=
  chs.foldl dedupeStep ([], seen0)

/-- The per-root block of rows built by the body of the write loop
(lines 415-466): the root row followed by its children rows; for a
non-finalized parent the existing sheet children are carried forward,
guarded by the subtask-loss safety check, whose `raise` is the
`.error`. -/
def blockFor (pm : String → String → String × String × String × String)
    (existingChildren : List (String × List Task))
    (byKey : List (String × List Task)) (root : Task) :
    Except String (List (List String)) :=
  let root_title := strip root.title
  if root_title = "" then .ok []
  else
    let fromId : List Task :=
      match root.id with
      | some p => (lookupA byKey p).getD []
      | none => []
    let fromTitle : List Task := (lookupA byKey root_title).getD []
    let finalized : Bool :=
      (match root.id with
        | some p => (lookupA byKey p).isSome
        | none => false) || (lookupA byKey root_title).isSome
    let dd := dedupeByNormTitle (fromId ++ fromTitle) []
    if finalized then
      .ok (rowFor pm root "" :: dd.1.map (fun ch => rowFor pm ch root_title))
    else
      let existing := (lookupA existingChildren root_title).getD []
      let dd2 := dedupeByNormTitle existing dd.2
      let allCh := dd.1 ++ dd2.1
      if (lookupA existingChildren root_title).isSome ∧
          allCh.length < existing.length then
        .error "Refusing to write: detected potential loss of subtasks"
      else
        .ok (rowFor pm root "" :: allCh.map (fun ch => rowFor pm ch root_title))

/-- The write loop with Python `raise` propagation. -/
def mapEx {α β : Type} (f : α → Except String β) :
    List α → Except String (List β)
  | [] => .ok []
  | x :: rest =>
    match f x with
    | .error e => .error e
    | .ok b =>
      match mapEx f rest with
      | .error e => .error e
      | .ok bs => .ok (b :: bs)

/-- `write_full_state` (lines 355-475): validate the header, capture
the preserve map and the existing parsed state, build the replacement
grid root by root, and return it (the source then clears the tab and
writes exactly these rows).  Any raise — bad header or the
subtask-loss check — aborts before anything is written. -/
def write_full_state (sheet : List (List String)) (roots_in_order : List Task)
    (children_by_parent : List (String × List Task)) :
    Except String (List (List String)) :=
  match require_header_or_fail sheet with
  | .error e => .error e
  | .ok _ =>
    match read_full_state sheet with
    | .error e => .error e
    | .ok _ =>
      match mapEx
        (blockFor (preserveOf sheet) (existingChildrenOf sheet)
          children_by_parent) roots_in_order with
      | .error e => .error e
      | .ok blocks => .ok (HEADER :: blocks.flatten)

/-- The stored grid after a `write_full_state` call: replaced by the
new rows on success, untouched when the call raises (the source's
`clear_values`/`update` run only after every raise point). -/
def applyWriteFullState (sheet : List (List String)) (roots : List Task)
    (byKey : List (String × List Task)) : List (List String) :=
  match write_full_state sheet roots byKey with
  | .ok rows => rows
  | .error _ => sheet

/-- The dedup loop only ever appends to the accumulated list, and what it
appends is a sublist of its input. -/
theorem dedupe_fold_shape (chs : List Task) :
    ∀ (d : List Task) (s : List String),
      ∃ e t, chs.foldl dedupeStep (d, s) = (d ++ e, t) ∧ List.Sublist e chs := by
  induction chs with
  | nil =>
    intro d s
    exact ⟨[], s, by simp, List.nil_sublist []⟩
  | cons ch rest ih =>
    intro d s
    simp only [List.foldl_cons]
    by_cases h : norm ch.title = "" ∨ norm ch.title ∈ s
    · have hstep : dedupeStep (d, s) ch = (d, s) := by
        simp [dedupeStep, h]
      rw [hstep]
      obtain ⟨e, t, he, hs⟩ := ih d s
      exact ⟨e, t, he, hs.cons ch⟩
    · have hstep : dedupeStep (d, s) ch = (d ++ [ch], norm ch.title :: s) := by
        simp [dedupeStep]
        exact not_or.mp h
      rw [hstep]
      obtain ⟨e, t, he, hs⟩ := ih (d ++ [ch]) (norm ch.title :: s)
      refine ⟨ch :: e, t, ?_, hs.cons₂ ch⟩
      rw [he, List.append_assoc]
      rfl

/-- `dedupeByNormTitle` returns a sublist of its input. -/
theorem dedupe_sublist (chs : List Task) (s : List String) :
    List.Sublist (dedupeByNormTitle chs s).1 chs := by
  obtain ⟨e, t, he, hs⟩ := dedupe_fold_shape chs [] s
  unfold dedupeByNormTitle
  rw [he]
  simpa using hs

theorem dedupeByNormTitle_nil (s : List String) :
    dedupeByNormTitle [] s = ([], s) := rfl

/-- A successful `mapEx` run maps every element to a success, and its
output for that element sits at the element's position. -/
theorem mapEx_ok_mem {α β : Type} (f : α → Except String β) :
    ∀ (l : List α) (res : List β), mapEx f l = .ok res →
      ∀ x ∈ l, ∃ b pre post, f x = .ok b ∧ res = pre ++ b :: post := by
  intro l
  induction l with
  | nil => intro res h x hx; cases hx
  | cons y rest ih =>
    intro res h x hx
    simp only [mapEx] at h
    cases hy : f y with
    | error e => rw [hy] at h; cases h
    | ok b =>
      rw [hy] at h
      cases hr : mapEx f rest with
      | error e => rw [hr] at h; cases h
      | ok bs =>
        rw [hr] at h
        injection h with h
        subst h
        cases List.mem_cons.mp hx with
        | inl hxy =>
          subst hxy
          exact ⟨b, [], bs, hy, rfl⟩
        | inr hxr =>
          obtain ⟨bx, pre, post, hfx, hres⟩ := ih bs hr x hxr
          exact ⟨bx, b :: pre, post, hfx, by rw [hres]; rfl⟩

/-- If any element of the list fails, `mapEx` fails. -/
theorem mapEx_error_of_mem {α β : Type} (f : α → Except String β) :
    ∀ (l : List α) (x : α), x ∈ l → (∃ m, f x = .error m) →
      ∃ msg, mapEx f l = .error msg := by
  intro l
  induction l with
  | nil => intro x hx _; cases hx
  | cons y rest ih =>
    intro x hx hxe
    simp only [mapEx]
    cases hy : f y with
    | error e => exact ⟨e, rfl⟩
    | ok b =>
      cases List.mem_cons.mp hx with
      | inl hxy =>
        subst hxy
        obtain ⟨m, hm⟩ := hxe
        rw [hm] at hy
        cases hy
      | inr hxr =>
        obtain ⟨msg, hmsg⟩ := ih x hxr hxe
        rw [hmsg]
        exact ⟨msg, rfl⟩

/-- A non-finalized root (children supplied under neither its id nor its
title) whose block succeeds emits exactly its own row followed by the
sheet's existing children for it, re-rendered in order. -/
theorem blockFor_nonfinal_ok
    (pm : String → String → String × String × String × String)
    (ec : List (String × List Task)) (byKey : List (String × List Task))
    (root : Task) (bl : List (List String))
    (hrt : strip root.title ≠ "")
    (hid : ∀ p, root.id = some p → lookupA byKey p = none)
    (htl : lookupA byKey (strip root.title) = none)
    (hok : blockFor pm ec byKey root = .ok bl) :
    bl = rowFor pm root "" ::
      ((lookupA ec (strip root.title)).getD []).map
        (fun ch => rowFor pm ch (strip root.title)) := by
  have hfid : (match root.id with
      | some p => (lookupA byKey p).getD []
      | none => ([] : List Task)) = ([] : List Task) := by
    cases hidv : root.id with
    | none => rfl
    | some p => simp [hid p hidv]
  have hfin2 : (match root.id with
      | some p => (lookupA byKey p).isSome
      | none => false) = false := by
    cases hidv : root.id with
    | none => rfl
    | some p => simp [hid p hidv]
  cases hec : lookupA ec (strip root.title) with
  | none =>
    have hval : blockFor pm ec byKey root = .ok [rowFor pm root ""] := by
      simp [blockFor, hrt, hfid, hfin2, htl, hec, dedupeByNormTitle_nil]
    rw [hval] at hok
    injection hok with hok
    simp [← hok]
  | some ex =>
    by_cases hlen : (dedupeByNormTitle ex []).1.length < ex.length
    · have hval : blockFor pm ec byKey root =
          .error "Refusing to write: detected potential loss of subtasks" := by
        simp [blockFor, hrt, hfid, hfin2, htl, hec, hlen, dedupeByNormTitle_nil]
      rw [hval] at hok
      cases hok
    · have hsub := dedupe_sublist ex []
      have heq : (dedupeByNormTitle ex []).1 = ex :=
        hsub.eq_of_length
          (Nat.le_antisymm hsub.length_le (Nat.le_of_not_lt hlen))
      have hval : blockFor pm ec byKey root =
          .ok (rowFor pm root "" ::
            ex.map (fun ch => rowFor pm ch (strip root.title))) := by
        simp [blockFor, hrt, hfid, hfin2, htl, hec, hlen,
          dedupeByNormTitle_nil, heq]
      rw [hval] at hok
      injection hok with hok
      simp [← hok]

/-- A non-finalized root present in the sheet whose deduped existing
children are strictly fewer than the sheet records fails the safety
check. -/
theorem blockFor_nonfinal_error
    (pm : String → String → String × String × String × String)
    (ec : List (String × List Task)) (byKey : List (String × List Task))
    (root : Task) (ex : List Task)
    (hrt : strip root.title ≠ "")
    (hid : ∀ p, root.id = some p → lookupA byKey p = none)
    (htl : lookupA byKey (strip root.title) = none)
    (hec : lookupA ec (strip root.title) = some ex)
    (hlen : (dedupeByNormTitle ex []).1.length < ex.length) :
    ∃ m, blockFor pm ec byKey root = .error m := by
  have hfid : (match root.id with
      | some p => (lookupA byKey p).getD []
      | none => ([] : List Task)) = ([] : List Task) := by
    cases hidv : root.id with
    | none => rfl
    | some p => simp [hid p hidv]
  have hfin2 : (match root.id with
      | some p => (lookupA byKey p).isSome
      | none => false) = false := by
    cases hidv : root.id with
    | none => rfl
    | some p => simp [hid p hidv]
  refine ⟨"Refusing to write: detected potential loss of subtasks", ?_⟩
  simp [blockFor, hrt, hfid, hfin2, htl, hec, hlen, dedupeByNormTitle_nil]

/-- C2: For every `write_full_state` call — (a) each root in the given
order whose children are supplied under neither its id nor its title
(ranking not finalized) has its existing sheet children carried forward,
in order, re-rendered through the standard row renderer directly under
its own row in the output; (b) if for such a sheet-present parent the
deduped carried-forward children number fewer than the sheet records,
the call fails with an error; (c) an erroring call leaves the stored
sheet contents unmodified (no clear, no update). -/
theorem C2_write_full_state_carry_and_guard :
    (∀ (sheet : List (List String)) (roots : List Task)
        (byKey : List (String × List Task)) (root : Task)
        (out : List (List String)),
      root ∈ roots →
      (∀ p, root.id = some p → lookupA byKey p = none) →
      lookupA byKey (strip root.title) = none →
      strip root.title ≠ "" →
      write_full_state sheet roots byKey = .ok out →
      ∃ pre post, out = pre ++
        (rowFor (preserveOf sheet) root "" ::
          ((lookupA (existingChildrenOf sheet) (strip root.title)).getD []).map
            (fun ch => rowFor (preserveOf sheet) ch (strip root.title)))
        ++ post) ∧
    (∀ (sheet : List (List String)) (roots : List Task)
        (byKey : List (String × List Task)) (root : Task) (ex : List Task),
      root ∈ roots →
      (∀ p, root.id = some p → lookupA byKey p = none) →
      lookupA byKey (strip root.title) = none →
      strip root.title ≠ "" →
      lookupA (existingChildrenOf sheet) (strip root.title) = some ex →
      (dedupeByNormTitle ex []).1.length < ex.length →
      ∃ msg, write_full_state sheet roots byKey = .error msg) ∧
    (∀ (sheet : List (List String)) (roots : List Task)
        (byKey : List (String × List Task)) (msg : String),
      write_full_state sheet roots byKey = .error msg →
      applyWriteFullState sheet roots byKey = sheet) := by
  refine ⟨?_, ?_, ?_⟩
  · intro sheet roots byKey root out hmem hid htl hrt hw
    unfold write_full_state at hw
    cases hh : require_header_or_fail sheet with
    | error e => rw [hh] at hw; cases hw
    | ok rows =>
      rw [hh] at hw
      have hread : read_full_state sheet = .ok (parseBody (rows.drop 1)) := by
        unfold read_full_state; rw [hh]
      rw [hread] at hw
      cases hm : mapEx
          (blockFor (preserveOf sheet) (existingChildrenOf sheet) byKey)
          roots with
      | error e => rw [hm] at hw; cases hw
      | ok blocks =>
        rw [hm] at hw
        injection hw with hw
        subst hw
        obtain ⟨b, pre, post, hfb, hres⟩ :=
          mapEx_ok_mem _ roots blocks hm root hmem
        have hb := blockFor_nonfinal_ok (preserveOf sheet)
          (existingChildrenOf sheet) byKey root b hrt hid htl hfb
        subst hb
        refine ⟨HEADER :: pre.flatten, post.flatten, ?_⟩
        rw [hres]
        simp
  · intro sheet roots byKey root ex hmem hid htl hrt hec hlen
    unfold write_full_state
    cases hh : require_header_or_fail sheet with
    | error e => exact ⟨e, rfl⟩
    | ok rows =>
      cases hr2 : read_full_state sheet with
      | error e => exact ⟨e, rfl⟩
      | ok st =>
        obtain ⟨m, hbf⟩ := blockFor_nonfinal_error (preserveOf sheet)
          (existingChildrenOf sheet) byKey root ex hrt hid htl hec hlen
        obtain ⟨msg, hmsg⟩ :=
          mapEx_error_of_mem _ roots root hmem ⟨m, hbf⟩
        exact ⟨msg, by rw [hmsg]⟩
  · intro sheet roots byKey msg hw
    unfold applyWriteFullState
    rw [hw]

def c2xSheet : List (List String) :=
  [HEADER,
   ["", "", "R", "", "", "", "", ""],
   ["", "", "  C", "R", "https://x", "", "", "https://x"]]

/-- C2, counterexample to verbatim carry-forward: the sheet child row of
the non-finalized parent "R" has Description equal to Link, and the
successful rewrite re-renders it with the Description blanked — the row
written back is not the row currently stored. -/
theorem C2_counterexample_rows_rerendered :
    write_full_state c2xSheet [{ title := "R" }] [] =
      .ok [HEADER,
        ["", "", "R", "", "", "", "", ""],
        ["", "", "  C", "R", "", "", "", "https://x"]] ∧
    ["", "", "  C", "R", "https://x", "", "", "https://x"] ∈ c2xSheet ∧
    ["", "", "  C", "R", "https://x", "", "", "https://x"] ∉
      [HEADER,
        ["", "", "R", "", "", "", "", ""],
        ["", "", "  C", "R", "", "", "", "https://x"]] :=
  ⟨rfl, by decide, by decide⟩

def c2Sheet : List (List String) :=
  [HEADER,
   ["todo", "cat", "Alpha", "", "descA", "2", "3", "http://a"],
   ["", "", "  Sub One", "Alpha", "d1", "", "", "l1"],
   ["x", "q", "  Sub Two ", "Alpha", "l2", "4", "5", "l2"],
   ["", "", "Beta", "", "", "", "", ""],
   ["", "", "  B-child", "Beta", "", "", "", ""],
   ["", "", "  b-CHILD", "Beta", "", "", "", ""]]

def c2Sheet2 : List (List String) :=
  [HEADER,
   ["todo", "cat", "Alpha", "", "descA", "2", "3", "http://a"],
   ["", "", "  Sub One", "Alpha", "d1", "", "", "l1"],
   ["x", "q", "  Sub Two ", "Alpha", "l2", "4", "5", "l2"],
   ["", "", "Beta", "", "", "", "", ""],
   ["", "", "  B-child", "Beta", "", "", "", ""]]

def c2BetaRoot : Task := { title := "Beta" }

def c2Roots : List Task :=
  [{ title := "Alpha", id := some "idA" }, c2BetaRoot, { title := "  " },
   { title := "Gamma" }]

def c2ByKey : List (String × List Task) :=
  [("idA", [{ title := "New One" }, { title := "new  one" },
    { title := "Sub Two", effort := "9" }]),
   ("Alpha", [{ title := "Extra", notes := "z", link := "z" }])]

def c2Out : List (List String) :=
  [HEADER,
   ["todo", "cat", "Alpha", "", "", "2", "3", ""],
   ["", "", "  New One", "Alpha", "", "", "", ""],
   ["x", "q", "  Sub Two", "Alpha", "", "9", "5", ""],
   ["", "", "  Extra", "Alpha", "", "", "", "z"],
   ["", "", "Beta", "", "", "", "", ""],
   ["", "", "  B-child", "Beta", "", "", "", ""],
   ["", "", "Gamma", "", "", "", "", ""]]

def c2BetaEx : List Task :=
  [{ title := "B-child", notes := "", link := "", category := "",
     effort := "", joy := "" },
   { title := "b-CHILD", notes := "", link := "", category := "",
     effort := "", joy := "" }]

/-- C2, witness: on a concrete ledger, the non-finalized parent "Beta"
gets its sheet child carried forward under it in a successful write; a
variant sheet holding two Beta children that collapse under title
normalization makes the call fail; and the failing call leaves the
sheet unchanged. -/
theorem C2_witness :
    (∃ pre post, c2Out = pre ++
      (rowFor (preserveOf c2Sheet2) c2BetaRoot "" ::
        ((lookupA (existingChildrenOf c2Sheet2)
            (strip c2BetaRoot.title)).getD []).map
          (fun ch => rowFor (preserveOf c2Sheet2) ch
            (strip c2BetaRoot.title))) ++ post) ∧
    (∃ msg, write_full_state c2Sheet c2Roots c2ByKey = .error msg) ∧
    applyWriteFullState c2Sheet c2Roots c2ByKey = c2Sheet :=
  ⟨C2_write_full_state_carry_and_guard.1 c2Sheet2 c2Roots c2ByKey c2BetaRoot
      c2Out (by decide) (fun p hp => nomatch hp) (by decide) (by decide) rfl,
   C2_write_full_state_carry_and_guard.2.1 c2Sheet c2Roots c2ByKey c2BetaRoot
      c2BetaEx (by decide) (fun p hp => nomatch hp) (by decide) (by decide)
      rfl (by decide),
   C2_write_full_state_carry_and_guard.2.2 c2Sheet c2Roots c2ByKey
      "Refusing to write: detected potential loss of subtasks" rfl⟩

/-! ## The orchestrator (`RankingController`, src/pairwise_comparison.py 160-488)

The controller talks to two external services: the ledger
(`_persist` → `sheets.write_full_state`) and the live source
(`gt...delete`).  We model an execution as the list of externally
visible events it produces, with two oracles choosing which external
calls raise: `pf n` — the `n`-th persist call raises; `df n` — the
`n`-th live-source delete raises (the source swallows that exception).
A persist event records the snapshot written: the root order and the
finalized child groups.  UI actions (choosing a side, refreshing the
pair, flushing) may be issued in any order — a superset of what the
Tk UI can produce. -/

def DELETE_PARENTS_IMMEDIATELY : Bool := false

structure Oracles where
  pf : Nat → Bool
  df : Nat → Bool

inductive Ev where
  | persist (ok : Bool) (roots : List Task) (children : List (String × List Task))
  | extDelete (listId taskId : String) (raised : Bool)
  deriving DecidableEq

structure CtrlState where
  rootsSorter : PairwiseBinarySorter
  childrenSortedByParent : List (String × List Task) := []
  childrenRemainingByParent : List (String × List Task) := []
  pendingChildDeletes : List (String × List Task) := []
  parentOrderIds : List String := []
  currentParentId : Option String := none
  childSorter : Option PairwiseBinarySorter := none
  persistedAfterAutoRoot : Bool := false
  deletedIds : List String := []
  persistCalls : Nat := 0
  deleteCalls : Nat := 0
  deriving DecidableEq

/-- `_persist` (lines 375-392): one write of the current snapshot —
`roots_sorter.sorted` plus the finalized child groups.  Returns the new
state, whether the call returned without raising, and the event. -/
def persistStep (ora : Oracles) (s : CtrlState) : CtrlState × Bool × Ev :=
  let ok := !ora.pf s.persistCalls
  ({ s with persistCalls := s.persistCalls + 1 },
   ok,
   Ev.persist ok s.rootsSorter.sorted s.childrenSortedByParent)

/-- `_delete_task` (lines 456-488): skip without calling out when the id
is missing/blank, already deleted, or the task list is missing/blank;
otherwise issue the external delete (whose exception, if any, is
swallowed) and mark the id deleted afterwards in every case. -/
def deleteTask (ora : Oracles) (s : CtrlState) (t : Task) : CtrlState × List Ev :=
  match t.id with
  | none => (s, [])
  | some tid =>
    if tid = "" then (s, [])
    else if tid ∈ s.deletedIds then (s, [])
    else
      match t.task_list_id with
      | none => (s, [])
      | some tl =>
        if tl = "" then (s, [])
        else
          ({ s with
              deleteCalls := s.deleteCalls + 1
              deletedIds := s.deletedIds ++ [tid] },
           [Ev.extDelete tl tid (ora.df s.deleteCalls)])

/-- Event-accumulating fold shared by every controller loop. -/
def foldSE {σ α : Type} (f : σ → α → σ × List Ev) (s : σ) (l : List α) :
    σ × List Ev :=
  l.foldl
    (fun acc a =>
      let r := f acc.1 a
      (r.1, acc.2 ++ r.2))
    (s, [])

def deleteTasks (ora : Oracles) (s : CtrlState) (ts : List Task) :
    CtrlState × List Ev :=
  foldSE (deleteTask ora) s ts

/-- `_parent_has_unprocessed_children` (lines 436-441). -/
def parentHasUnprocessedChildren (s : CtrlState) (pid : String) : Bool :=
  !((lookupA s.childrenRemainingByParent pid).getD []).isEmpty ||
  (s.currentParentId == some pid &&
    (match s.childSorter with
     | some cs => PairwiseBinarySorter.has_work cs
     | none => false))

/-- `_delete_parent_if_ready` (lines 443-450). -/
def deleteParentIfReady (ora : Oracles) (s : CtrlState) (pid : Option String) :
    CtrlState × List Ev :=
  match pid with
  | none => (s, [])
  | some p =>
    if p = "" then (s, [])
    else if parentHasUnprocessedChildren s p then (s, [])
    else
      match s.rootsSorter.sorted.find? (fun r => r.id == some p) with
      | some parent => deleteTask ora s parent
      | none => (s, [])

/-- `self._pending_child_deletes_by_parent[pid] = []`. -/
def dropQueue (st : CtrlState) (pid : String) : CtrlState :=
  { st with pendingChildDeletes := setA st.pendingChildDeletes pid [] }

/-- `self.current_parent_id = None; self.child_sorter = None`. -/
def resetSession (st : CtrlState) : CtrlState :=
  { st with currentParentId := none, childSorter := none }

def childFinishOk (ora : Oracles) (st : CtrlState) (pid : String) :
    CtrlState × List Ev :=
  let q := (lookupA st.pendingChildDeletes pid).getD []
  let r1 := deleteTasks ora st q
  let r2 := deleteParentIfReady ora (dropQueue r1.1 pid) (some pid)
  (resetSession r2.1, r1.2 ++ r2.2)

/-- `self.children_sorted_by_parent_id[pid] = list(self.child_sorter.sorted)`. -/
def recordFinal (s2 : CtrlState) (pid : String) (finalSorted : List Task) :
    CtrlState :=
  { s2 with
    childrenSortedByParent := setA s2.childrenSortedByParent pid finalSorted }

/-- The tail of `_decide`'s child branch once the child sorter finishes
(lines 350-371): record the final order, persist inside `try/except`,
and only on success drain the parent's pending-delete queue and
consider the parent deletion; the active session is reset either way. -/
def childFinish (ora : Oracles) (s2 : CtrlState) (pid : String)
    (finalSorted : List Task) : CtrlState × List Ev :=
  let pr := persistStep ora (recordFinal s2 pid finalSorted)
  if pr.2.1 then
    let r := childFinishOk ora pr.1 pid
    (r.1, pr.2.2 :: r.2)
  else
    (resetSession pr.1, [pr.2.2])

def setRootSorter (s : CtrlState) (rs : PairwiseBinarySorter) : CtrlState :=
  { s with rootsSorter := rs }

def setChildSorter (s : CtrlState) (cs : PairwiseBinarySorter) : CtrlState :=
  { s with childSorter := some cs }

/-- `self._pending_child_deletes_by_parent.setdefault(pid, []).append(ch)`. -/
def queueChildDelete (s : CtrlState) (pid : String) (ch : Task) : CtrlState :=
  { s with pendingChildDeletes := appendA s.pendingChildDeletes pid ch }

/-- `_decide` (lines 326-371).  In the root branch `_persist` is
unguarded: a raise propagates out of the decision handler, so the step
stops right there — the sorter mutation and the failed persist remain,
and no delete is attempted.  In the child branch a finishing sorter
first records the final order, then persists inside `try/except`, and
only on success drains the parent's pending-delete queue and considers
the parent for deletion; the active sorter is reset either way. -/
def ctrlDecide (ora : Oracles) (s : CtrlState) (left : Bool) :
    CtrlState × List Ev :=
  if PairwiseBinarySorter.has_work s.rootsSorter then
    let d := PairwiseBinarySorter.decide s.rootsSorter left
    let s1 := setRootSorter s d.2
    match d.1 with
    | none => (s1, [])
    | some placedRoot =>
      let pr := persistStep ora s1
      if !pr.2.1 then (pr.1, [pr.2.2])
      else
        match placedRoot.id with
        | some pid =>
          if pid = "" then (pr.1, [pr.2.2])
          else if DELETE_PARENTS_IMMEDIATELY then
            let r := deleteTask ora pr.1 placedRoot
            (r.1, pr.2.2 :: r.2)
          else
            let r := deleteParentIfReady ora pr.1 (some pid)
            (r.1, pr.2.2 :: r.2)
        | none => (pr.1, [pr.2.2])
  else
    match s.currentParentId, s.childSorter with
    | some pid, some cs =>
      if pid = "" then (s, [])
      else
        let d := PairwiseBinarySorter.decide cs left
        let s1 := setChildSorter s d.2
        match d.1 with
        | none => (s1, [])
        | some placedChild =>
          let s2 := queueChildDelete s1 pid placedChild
          if PairwiseBinarySorter.has_work d.2 then (s2, [])
          else childFinish ora s2 pid d.2.sorted
    | _, _ => (s, [])

/-- The state change of the single-child auto-placement: the child
moves from the remaining group to the finalized group. -/
def trivialPlace (s : CtrlState) (pid : String) (child : Task) : CtrlState :=
  { s with
    childrenRemainingByParent := setA s.childrenRemainingByParent pid []
    childrenSortedByParent := appendA s.childrenSortedByParent pid child }

/-- One pass of the `_auto_place_trivial_children` loop body (lines
394-413) for one parent id. -/
def autoPlaceOne (ora : Oracles) (s : CtrlState) (pid : String) :
    CtrlState × List Ev :=
  match (lookupA s.childrenRemainingByParent pid).getD [] with
  | [] => deleteParentIfReady ora s (some pid)
  | [child] =>
    let pr := persistStep ora (trivialPlace s pid child)
    if pr.2.1 then
      let r1 := deleteTask ora pr.1 child
      let r2 := deleteParentIfReady ora r1.1 (some pid)
      (r2.1, pr.2.2 :: (r1.2 ++ r2.2))
    else (pr.1, [pr.2.2])
  | _ => (s, [])

/-- `_auto_place_trivial_children` (lines 394-413): iterate over a
snapshot of the keys. -/
def autoPlace (ora : Oracles) (s : CtrlState) : CtrlState × List Ev :=
  foldSE (autoPlaceOne ora) s (s.childrenRemainingByParent.map Prod.fst)

/-- The `while self.parent_order_ids` loop of
`_activate_next_parent_group` (lines 415-432), structural on the id
list; the final component reports whether a group was activated. -/
def activateAux (ora : Oracles) (s : CtrlState) :
    List String → CtrlState × List Ev × Bool
  | [] => ({ s with parentOrderIds := [] }, [], false)
  | pid :: rest =>
    if (lookupA s.childrenSortedByParent pid).isSome then
      let r := deleteParentIfReady ora s (some pid)
      let r2 := activateAux ora r.1 rest
      (r2.1, r.2 ++ r2.2.1, r2.2.2)
    else if ((lookupA s.childrenRemainingByParent pid).getD []).isEmpty then
      let r := deleteParentIfReady ora s (some pid)
      let r2 := activateAux ora r.1 rest
      (r2.1, r.2 ++ r2.2.1, r2.2.2)
    else
      ({ s with
          parentOrderIds := pid :: rest
          currentParentId := some pid
          childSorter :=
            some ⟨[], (lookupA s.childrenRemainingByParent pid).getD [], []⟩
          childrenRemainingByParent := setA s.childrenRemainingByParent pid [] },
       [], true)

def activateNextParentGroup (ora : Oracles) (s : CtrlState) :
    CtrlState × List Ev × Bool :=
  activateAux ora s s.parentOrderIds

def setFlag (s : CtrlState) : CtrlState :=
  { s with persistedAfterAutoRoot := true }

/-- Step 3's parent-order prep: the ids of the sorted roots, in order,
skipping blank/missing ids. -/
def buildParentOrder (s : CtrlState) : CtrlState :=
  { s with
    parentOrderIds := s.rootsSorter.sorted.filterMap
      (fun r => match r.id with
        | some i => if i = "" then none else some i
        | none => none) }

/-- Step 2 of the controller's `current_pair` (lines 294-297): the
one-time persist of the auto-placed root order.  The third component
reports an abort (the persist raised, propagating out of
`current_pair`; the flag stays unset). -/
def step2 (ora : Oracles) (s : CtrlState) : CtrlState × List Ev × Bool :=
  if !s.persistedAfterAutoRoot && !s.rootsSorter.sorted.isEmpty then
    let pr := persistStep ora s
    if pr.2.1 then
      (setFlag pr.1, [pr.2.2], false)
    else (pr.1, [pr.2.2], true)
  else (s, [], false)

/-- Step 3 of the controller's `current_pair` (lines 299-304):
parent-order prep plus trivial-children handling, first time only. -/
def step3 (ora : Oracles) (s2 : CtrlState) : CtrlState × List Ev :=
  if s2.parentOrderIds.isEmpty then
    let r := autoPlace ora (buildParentOrder s2)
    (r.1, r.2)
  else (s2, [])

/-- Activation followed by the child sorter's `current_pair` call
(lines 307-311, when no child sorter is busy). -/
def step4b (ora : Oracles) (s4 : CtrlState) :
    CtrlState × List Ev × Option (Task × Task) :=
  let act := activateNextParentGroup ora s4
  if !act.2.2 then (act.1, act.2.1, none)
  else
    match act.1.childSorter with
    | some cs =>
      let r := PairwiseBinarySorter.current_pair cs
      (setChildSorter act.1 r.st, act.2.1, r.pair)
    | none => (act.1, act.2.1, none)

/-- Step 4 of the controller's `current_pair` (lines 307-311). -/
def step4 (ora : Oracles) (s4 : CtrlState) :
    CtrlState × List Ev × Option (Task × Task) :=
  match s4.childSorter with
  | some cs =>
    if PairwiseBinarySorter.has_work cs then
      let r := PairwiseBinarySorter.current_pair cs
      (setChildSorter s4 r.st, [], r.pair)
    else step4b ora s4
  | none => step4b ora s4

/-- Steps 2-4 of the controller's `current_pair` (lines 294-311), run
when the root sorter offered no pair. -/
def afterRoots (ora : Oracles) (s : CtrlState) :
    CtrlState × List Ev × Option (Task × Task) :=
  let st2 := step2 ora s
  if st2.2.2 then (st2.1, st2.2.1, none)
  else
    let st3 := step3 ora st2.1
    let st4 := step4 ora st3.1
    (st4.1, st2.2.1 ++ (st3.2 ++ st4.2.1), st4.2.2)

/-- The controller's `current_pair` (lines 287-311). -/
def ctrlCurrentPair (ora : Oracles) (s : CtrlState) :
    CtrlState × List Ev × Option (Task × Task) :=
  if PairwiseBinarySorter.has_work s.rootsSorter then
    let r := PairwiseBinarySorter.current_pair s.rootsSorter
    let s1 := setRootSorter s r.st
    match r.pair with
    | some p => (s1, [], some p)
    | none => afterRoots ora s1
  else afterRoots ora s

/-- `_final_cleanup_for_parents` (lines 452-454). -/
def finalCleanup (ora : Oracles) (s : CtrlState) : CtrlState × List Ev :=
  foldSE (fun st pid => deleteParentIfReady ora st (some pid)) s
    (s.childrenRemainingByParent.map Prod.fst)

/-- `flush` (lines 319-322): a persist failure propagates, skipping the
cleanup. -/
def ctrlFlush (ora : Oracles) (s : CtrlState) : CtrlState × List Ev :=
  let pr := persistStep ora s
  if pr.2.1 then
    let r := finalCleanup ora pr.1
    (r.1, pr.2.2 :: r.2)
  else (pr.1, [pr.2.2])

/-- `_seed_empty_child_groups_for_all_parents` (lines 269-273). -/
def seedEmpty (roots : List Task) (m : List (String × List Task)) :
    List (String × List Task) :=
  roots.foldl
    (fun m r =>
      match r.id with
      | some pid =>
        if pid ≠ "" ∧ (lookupA m pid).isNone then m ++ [(pid, [])] else m
      | none => m)
    m

/-- `RankingController.__init__` (lines 161-201), from the two parsed
sheet collections and the two live-source collections. -/
def mkController (bR : List Task) (bC : List (String × List Task))
    (gR : List Task) (gC : List (String × List Task)) : CtrlState :=
  let rc := reconcile bR bC gR gC
  { rootsSorter := ⟨rc.roots, rc.remainingRoots, []⟩
    childrenRemainingByParent :=
      seedEmpty (rc.roots ++ rc.remainingRoots) rc.remainingChildren }

inductive Act where
  | decideL | decideR | refresh | doFlush
  deriving DecidableEq

def ctrlStep (ora : Oracles) (s : CtrlState) : Act → CtrlState × List Ev
  | .decideL => ctrlDecide ora s true
  | .decideR => ctrlDecide ora s false
  | .refresh =>
    let r := ctrlCurrentPair ora s
    (r.1, r.2.1)
  | .doFlush => ctrlFlush ora s

def ctrlRun (ora : Oracles) (s : CtrlState) (acts : List Act) :
    CtrlState × List Ev :=
  foldSE (ctrlStep ora) s acts

/-- Does this event durably record a placement of task `tid`?  Only a
persist that returned without raising and whose snapshot contains `tid`
among the roots or inside a finalized child group. -/
def coversB (tid : String) : Ev → Bool
  | .persist ok roots children =>
    ok &&
    (roots.any (fun r => r.id == some tid) ||
      children.any (fun pc => pc.2.any (fun c => c.id == some tid)))
  | .extDelete _ _ _ => false

/-- Every external delete in `evs` is preceded (in `tr ++ evs` order) by
a covering successful persist. -/
def goodEmitB : List Ev → List Ev → Bool
  | _, [] => true
  | tr, e :: rest =>
    match e with
    | .extDelete _ tid _ => tr.any (coversB tid) && goodEmitB (tr ++ [e]) rest
    | .persist _ _ _ => goodEmitB (tr ++ [e]) rest

def GoodTrace (evs : List Ev) : Prop := goodEmitB [] evs = true

/-- C9: deletion is idempotent and failure-tolerant — a delete for an id
already in `deletedIds` is a no-op (no external call, no state change);
a first delete for an undeleted id with a task list issues exactly one
external call and marks the id deleted locally whether or not that call
raises (the raise is swallowed); and repeating the delete right after
is a no-op, so the id is never retried. -/
theorem C9_idempotent_failure_tolerant_delete :
    (∀ (ora : Oracles) (s : CtrlState) (t : Task) (tid : String),
      t.id = some tid → tid ∈ s.deletedIds →
      deleteTask ora s t = (s, [])) ∧
    (∀ (ora : Oracles) (s : CtrlState) (t : Task) (tid tl : String),
      t.id = some tid → tid ≠ "" → tid ∉ s.deletedIds →
      t.task_list_id = some tl → tl ≠ "" →
      deleteTask ora s t =
        ({ s with
            deleteCalls := s.deleteCalls + 1
            deletedIds := s.deletedIds ++ [tid] },
         [Ev.extDelete tl tid (ora.df s.deleteCalls)])) ∧
    (∀ (ora : Oracles) (s : CtrlState) (t : Task) (tid tl : String),
      t.id = some tid → tid ≠ "" → tid ∉ s.deletedIds →
      t.task_list_id = some tl → tl ≠ "" →
      deleteTask ora (deleteTask ora s t).1 t =
        ((deleteTask ora s t).1, [])) := by
  have hskip : ∀ (ora : Oracles) (s : CtrlState) (t : Task) (tid : String),
      t.id = some tid → tid ∈ s.deletedIds → deleteTask ora s t = (s, []) := by
    intro ora s t tid hid hmem
    simp only [deleteTask, hid]
    by_cases htid : tid = ""
    · simp [htid]
    · simp [htid, hmem]
  have hdo : ∀ (ora : Oracles) (s : CtrlState) (t : Task) (tid tl : String),
      t.id = some tid → tid ≠ "" → tid ∉ s.deletedIds →
      t.task_list_id = some tl → tl ≠ "" →
      deleteTask ora s t =
        ({ s with
            deleteCalls := s.deleteCalls + 1
            deletedIds := s.deletedIds ++ [tid] },
         [Ev.extDelete tl tid (ora.df s.deleteCalls)]) := by
    intro ora s t tid tl h1 h2 h3 h4 h5
    simp [deleteTask, h1, h2, h3, h4, h5]
  refine ⟨hskip, hdo, ?_⟩
  intro ora s t tid tl h1 h2 h3 h4 h5
  rw [hdo ora s t tid tl h1 h2 h3 h4 h5]
  exact hskip ora _ t tid h1 (by simp)

def c9T : Task := { title := "T", id := some "t1", task_list_id := some "L" }

def c9S0 : CtrlState := { rootsSorter := ⟨[], [], []⟩ }

def c9S1 : CtrlState := { rootsSorter := ⟨[], [], []⟩, deletedIds := ["t1"] }

def c9Ora : Oracles := ⟨fun _ => false, fun _ => true⟩

/-- C9, witness: a concrete task against an external source whose delete
always raises — the already-deleted call is a no-op, the first real call
emits one delete event and marks the id even though it raised, and an
immediate repeat is a no-op. -/
theorem C9_witness :
    deleteTask c9Ora c9S1 c9T = (c9S1, []) ∧
    deleteTask c9Ora c9S0 c9T =
      ({ c9S0 with
          deleteCalls := c9S0.deleteCalls + 1
          deletedIds := c9S0.deletedIds ++ ["t1"] },
       [Ev.extDelete "L" "t1" (c9Ora.df c9S0.deleteCalls)]) ∧
    deleteTask c9Ora (deleteTask c9Ora c9S0 c9T).1 c9T =
      ((deleteTask c9Ora c9S0 c9T).1, []) :=
  ⟨C9_idempotent_failure_tolerant_delete.1 c9Ora c9S1 c9T "t1" rfl (by decide),
   C9_idempotent_failure_tolerant_delete.2.1 c9Ora c9S0 c9T "t1" "L" rfl
     (by decide) (by decide) rfl (by decide),
   C9_idempotent_failure_tolerant_delete.2.2 c9Ora c9S0 c9T "t1" "L" rfl
     (by decide) (by decide) rfl (by decide)⟩

theorem foldSE_acc {σ α : Type} (f : σ → α → σ × List Ev) (l : List α) :
    ∀ (s : σ) (acc : List Ev),
      l.foldl
        (fun b a =>
          let r := f b.1 a
          (r.1, b.2 ++ r.2)) (s, acc) =
      ((foldSE f s l).1, acc ++ (foldSE f s l).2) := by
  induction l with
  | nil => intro s acc; simp [foldSE]
  | cons a rest ih =>
    intro s acc
    simp only [foldSE, List.foldl_cons]
    rw [ih (f s a).1 (acc ++ (f s a).2), ih (f s a).1 ([] ++ (f s a).2)]
    simp

theorem foldSE_cons {σ α : Type} (f : σ → α → σ × List Ev) (s : σ) (a : α)
    (l : List α) :
    foldSE f s (a :: l) =
      ((foldSE f (f s a).1 l).1, (f s a).2 ++ (foldSE f (f s a).1 l).2) := by
  simp only [foldSE, List.foldl_cons]
  rw [foldSE_acc]
  simp [foldSE]

theorem foldSE_induction {σ α : Type} (f : σ → α → σ × List Ev)
    (P : σ → List Ev → Prop) (l : List α) :
    ∀ (s : σ) (tr : List Ev), P s tr →
      (∀ s' tr' a, a ∈ l → P s' tr' → P (f s' a).1 (tr' ++ (f s' a).2)) →
      P (foldSE f s l).1 (tr ++ (foldSE f s l).2) := by
  induction l with
  | nil => intro s tr h0 _; simpa [foldSE] using h0
  | cons a rest ih =>
    intro s tr h0 hstep
    rw [foldSE_cons]
    have h1 := hstep s tr a (by simp) h0
    have h2 := ih (f s a).1 (tr ++ (f s a).2) h1
      (fun s' tr' x hx h => hstep s' tr' x (by simp [hx]) h)
    simpa [List.append_assoc] using h2

namespace PairwiseBinarySorter

/-- A task returned as placed by `decide` is in the updated ordered
sequence. -/
theorem decide_placed_mem (s : PairwiseBinarySorter) (b : Bool) (t : Task)
    (h : (decide s b).1 = some t) : t ∈ ((decide s b).2).sorted := by
  obtain ⟨so, rem, fr⟩ := s
  match fr with
  | [] => exact absurd h (by simp [decide])
  | f :: fs =>
    cases b
    · rw [decide_cons_false] at h ⊢
      by_cases hc : f.high ≤ f.mid + 1
      · rw [if_pos hc] at h ⊢
        simp only at h
        injection h with h
        subst h
        simp [pyInsert]
      · rw [if_neg hc] at h
        simp at h
    · rw [decide_cons_true] at h ⊢
      by_cases hc : f.mid ≤ f.low
      · rw [if_pos hc] at h ⊢
        simp only at h
        injection h with h
        subst h
        simp [pyInsert]
      · rw [if_neg hc] at h
        simp at h

/-- `decide` that does not place keeps the sorter busy. -/
theorem decide_none_has_work (s : PairwiseBinarySorter) (b : Bool)
    (hn : (decide s b).1 = none) (hw : has_work s = true) :
    has_work (decide s b).2 = true := by
  obtain ⟨so, rem, fr⟩ := s
  match fr with
  | [] => simpa [decide] using hw
  | f :: fs =>
    cases b
    · rw [decide_cons_false] at hn ⊢
      by_cases hc : f.high ≤ f.mid + 1
      · rw [if_pos hc] at hn; simp at hn
      · rw [if_neg hc]; simp [has_work]
    · rw [decide_cons_true] at hn ⊢
      by_cases hc : f.mid ≤ f.low
      · rw [if_pos hc] at hn; simp at hn
      · rw [if_neg hc]; simp [has_work]

/-- `current_pair` never exhausts a sorter whose baseline is nonempty. -/
theorem current_pair_keeps_work (s : PairwiseBinarySorter)
    (hso : s.sorted ≠ []) (hw : has_work s = true) :
    has_work (current_pair s).st = true := by
  obtain ⟨so, rem, fr⟩ := s
  match fr with
  | f :: fs =>
    rw [current_pair_frame]
    simp [has_work]
  | [] =>
    match rem with
    | [] => simp [has_work] at hw
    | c :: rest =>
      rw [current_pair_open _ _ _ hso]
      simp [has_work]

/-- `current_pair` on an exhausted sorter is the identity. -/
theorem current_pair_no_work_id (s : PairwiseBinarySorter)
    (h : has_work s = false) : (current_pair s).st = s := by
  obtain ⟨so, rem, fr⟩ := s
  simp only [has_work, Bool.or_eq_false_iff, Bool.not_eq_false',
    List.isEmpty_iff] at h
  obtain ⟨h1, h2⟩ := h
  subst h1
  subst h2
  rfl

theorem currentPairAux_none_no_work :
    ∀ (so rem : List Task) (fs : List Frame),
      (∀ f ∈ fs, f.mid < so.length) →
      (currentPairAux so rem fs).pair = none →
      has_work (currentPairAux so rem fs).st = false
  | so, rem, f :: fs => by
    intro hf h
    exfalso
    have hm := hf f (by simp)
    simp only [currentPairAux, List.getElem?_eq_getElem hm] at h
    cases h
  | so, [], [] => by
    intro _ _
    simp [currentPairAux, has_work]
  | so, c :: rest, [] => by
    intro hf h
    simp only [currentPairAux] at h ⊢
    by_cases hso : so.isEmpty
    · rw [if_pos hso] at h ⊢
      exact currentPairAux_none_no_work (so ++ [c]) rest [] (by simp) h
    · rw [if_neg hso] at h ⊢
      have hlen : 0 < so.length := by
        cases so
        · simp at hso
        · simp
      have hm : so.length / 2 < so.length := Nat.div_lt_self hlen (by norm_num)
      rw [List.getElem?_eq_getElem hm] at h
      cases h

/-- Under the structural invariant, a `current_pair` call that offers no
pair leaves a sorter with no work. -/
theorem current_pair_none_no_work {s : PairwiseBinarySorter}
    (hinv : SorterInv s) (h : (current_pair s).pair = none) :
    has_work (current_pair s).st = false := by
  refine currentPairAux_none_no_work s.sorted s.remaining s.frames ?_ h
  intro f hf
  have hfok := hinv.2 f hf
  exact lt_of_lt_of_le hfok.2.1 hfok.2.2.1

end PairwiseBinarySorter

theorem goodEmitB_append (pre tr evs : List Ev) :
    goodEmitB pre (tr ++ evs) = (goodEmitB pre tr && goodEmitB (pre ++ tr) evs) := by
  induction tr generalizing pre with
  | nil => simp [goodEmitB]
  | cons e rest ih =>
    cases e with
    | persist ok roots children =>
      simp only [List.cons_append, goodEmitB, List.append_eq]
      rw [ih (pre ++ [Ev.persist ok roots children])]
      simp [List.append_assoc]
    | extDelete tl tid r =>
      simp only [List.cons_append, goodEmitB, List.append_eq]
      rw [ih (pre ++ [Ev.extDelete tl tid r])]
      simp [List.append_assoc, Bool.and_assoc]

theorem any_mono {tr tr' : List Ev} (p : Ev → Bool)
    (hsub : ∀ e ∈ tr, e ∈ tr') (h : tr.any p = true) : tr'.any p = true := by
  obtain ⟨e, he, hp⟩ := List.any_eq_true.mp h
  exact List.any_eq_true.mpr ⟨e, hsub e he, hp⟩

theorem goodEmitB_mono {tr tr' : List Ev} (evs : List Ev)
    (hsub : ∀ e ∈ tr, e ∈ tr') (h : goodEmitB tr evs = true) :
    goodEmitB tr' evs = true := by
  induction evs generalizing tr tr' with
  | nil => rfl
  | cons e rest ih =>
    cases e with
    | persist ok roots children =>
      simp only [goodEmitB] at h ⊢
      refine ih ?_ h
      intro x hx
      rcases List.mem_append.mp hx with hx | hx
      · exact List.mem_append.mpr (Or.inl (hsub x hx))
      · exact List.mem_append.mpr (Or.inr hx)
    | extDelete tl tid r =>
      simp only [goodEmitB, Bool.and_eq_true] at h ⊢
      refine ⟨any_mono _ hsub h.1, ih ?_ h.2⟩
      intro x hx
      rcases List.mem_append.mp hx with hx | hx
      · exact List.mem_append.mpr (Or.inl (hsub x hx))
      · exact List.mem_append.mpr (Or.inr hx)

theorem goodEmitB_persist (tr : List Ev) (ok : Bool) (roots : List Task)
    (children : List (String × List Task)) :
    goodEmitB tr [Ev.persist ok roots children] = true := rfl

theorem goodEmitB_extDelete (tr : List Ev) (tl tid : String) (r : Bool) :
    goodEmitB tr [Ev.extDelete tl tid r] = tr.any (coversB tid) := by
  simp [goodEmitB]

theorem coversB_of_root {roots : List Task} {C : List (String × List Task)}
    {t : Task} {tid : String} (hmem : t ∈ roots) (hid : t.id = some tid) :
    coversB tid (Ev.persist true roots C) = true := by
  simp only [coversB, Bool.true_and, Bool.or_eq_true]
  exact Or.inl (List.any_eq_true.mpr ⟨t, hmem, by simp [hid]⟩)

theorem coversB_of_child {roots : List Task} {C : List (String × List Task)}
    {c : Task} {tid : String} (hmem : ∃ pc ∈ C, c ∈ pc.2)
    (hid : c.id = some tid) :
    coversB tid (Ev.persist true roots C) = true := by
  simp only [coversB, Bool.true_and, Bool.or_eq_true]
  obtain ⟨pc, hpc, hc⟩ := hmem
  exact Or.inr (List.any_eq_true.mpr ⟨pc, hpc,
    List.any_eq_true.mpr ⟨c, hc, by simp [hid]⟩⟩)

/-- All ids of `t` are covered by a successful persist in `tr`. -/
def trCov (tr : List Ev) (t : Task) : Prop :=
  ∀ tid, t.id = some tid → tr.any (coversB tid) = true

theorem trCov_mono {tr tr' : List Ev} (hsub : ∀ e ∈ tr, e ∈ tr') {t : Task}
    (h : trCov tr t) : trCov tr' t :=
  fun tid hid => any_mono _ hsub (h tid hid)

theorem setA_self_mem {α : Type} (m : List (String × α)) (k : String) (v : α) :
    (k, v) ∈ setA m k v := by
  induction m with
  | nil => simp [setA]
  | cons e rest ih =>
    obtain ⟨k0, w⟩ := e
    by_cases h : k0 = k
    · subst h
      simp [setA]
    · simp [setA, h, ih]

theorem appendA_self_mem {α : Type} (m : List (String × List α)) (k : String)
    (x : α) : ∃ l, (k, l) ∈ appendA m k x ∧ x ∈ l := by
  induction m with
  | nil => exact ⟨[x], by simp [appendA]⟩
  | cons e rest ih =>
    obtain ⟨k0, w⟩ := e
    by_cases h : k0 = k
    · subst h
      exact ⟨w ++ [x], by simp [appendA]⟩
    · obtain ⟨l, hl, hx⟩ := ih
      exact ⟨l, by simp [appendA, h, hl], hx⟩

theorem lookupA_isSome_appendA {α : Type} (m : List (String × List α))
    (k k' : String) (x : α) (h : (lookupA m k').isSome) :
    (lookupA (appendA m k x) k').isSome := by
  by_cases hk : k' = k
  · subst hk
    simp [lookupA_appendA_self]
  · rwa [lookupA_appendA_ne m k k' x hk]

/-- The state change of a pure-deletion step: only the deletion
bookkeeping (`deletedIds`, `deleteCalls`) may differ. -/
def SameCore (s s' : CtrlState) : Prop :=
  s'.rootsSorter = s.rootsSorter ∧
  s'.childrenSortedByParent = s.childrenSortedByParent ∧
  s'.childrenRemainingByParent = s.childrenRemainingByParent ∧
  s'.pendingChildDeletes = s.pendingChildDeletes ∧
  s'.parentOrderIds = s.parentOrderIds ∧
  s'.currentParentId = s.currentParentId ∧
  s'.childSorter = s.childSorter ∧
  s'.persistedAfterAutoRoot = s.persistedAfterAutoRoot

theorem sameCore_refl (s : CtrlState) : SameCore s s :=
  ⟨rfl, rfl, rfl, rfl, rfl, rfl, rfl, rfl⟩

theorem sameCore_trans {a b c : CtrlState} (h1 : SameCore a b)
    (h2 : SameCore b c) : SameCore a c :=
  ⟨h2.1.trans h1.1, h2.2.1.trans h1.2.1, h2.2.2.1.trans h1.2.2.1,
   h2.2.2.2.1.trans h1.2.2.2.1, h2.2.2.2.2.1.trans h1.2.2.2.2.1,
   h2.2.2.2.2.2.1.trans h1.2.2.2.2.2.1,
   h2.2.2.2.2.2.2.1.trans h1.2.2.2.2.2.2.1,
   h2.2.2.2.2.2.2.2.trans h1.2.2.2.2.2.2.2⟩

/-- The controller's safety invariant over the emitted trace. -/
structure Inv (s : CtrlState) (tr : List Ev) : Prop where
  good : goodEmitB [] tr = true
  rsInv : PairwiseBinarySorter.SorterInv s.rootsSorter
  flagRoot : s.persistedAfterAutoRoot = true →
    PairwiseBinarySorter.has_work s.rootsSorter = false
  flagCov : s.persistedAfterAutoRoot = true →
    ∃ C, Ev.persist true s.rootsSorter.sorted C ∈ tr
  queue : ∀ p q c, lookupA s.pendingChildDeletes p = some q → c ∈ q →
    (s.currentParentId = some p ∧ ∃ cs, s.childSorter = some cs ∧
      PairwiseBinarySorter.has_work cs = true ∧ c ∈ cs.sorted) ∨
    (s.currentParentId ≠ some p ∧
      (lookupA s.childrenSortedByParent p).isSome = true)

/-- The root order is already durably recorded (or there is nothing to
record): the precondition under which parent deletions are safe. -/
def RootCovOrNil (s : CtrlState) (tr : List Ev) : Prop :=
  s.rootsSorter.sorted = [] ∨ ∃ C, Ev.persist true s.rootsSorter.sorted C ∈ tr

theorem rootCovOrNil_mono {s : CtrlState} {tr tr' : List Ev}
    (hsub : ∀ e ∈ tr, e ∈ tr') (h : RootCovOrNil s tr) : RootCovOrNil s tr' := by
  rcases h with h | ⟨C, hC⟩
  · exact Or.inl h
  · exact Or.inr ⟨C, hsub _ hC⟩

theorem good_extend {tr evs : List Ev} (h1 : goodEmitB [] tr = true)
    (h2 : goodEmitB tr evs = true) : goodEmitB [] (tr ++ evs) = true := by
  rw [goodEmitB_append]
  simp [h1, h2]

/-- Transfer the invariant across a pure-deletion step whose events are
all properly covered. -/
theorem inv_of_sameCore {s s' : CtrlState} {tr evs : List Ev}
    (h : Inv s tr) (hc : SameCore s s') (hg : goodEmitB tr evs = true) :
    Inv s' (tr ++ evs) := by
  obtain ⟨h1, h2, h3, h4, h5, h6, h7, h8⟩ := hc
  constructor
  · exact good_extend h.good hg
  · rw [h1]
    exact h.rsInv
  · rw [h8, h1]
    exact h.flagRoot
  · rw [h8, h1]
    intro hf
    obtain ⟨C, hC⟩ := h.flagCov hf
    exact ⟨C, by simp [hC]⟩
  · rw [h4, h6, h7, h2]
    exact h.queue

theorem deleteTask_core (ora : Oracles) (s : CtrlState) (t : Task) :
    SameCore s (deleteTask ora s t).1 := by
  unfold deleteTask
  split
  · exact sameCore_refl s
  · split
    · exact sameCore_refl s
    · split
      · exact sameCore_refl s
      · split
        · exact sameCore_refl s
        · split
          · exact sameCore_refl s
          · exact ⟨rfl, rfl, rfl, rfl, rfl, rfl, rfl, rfl⟩

theorem deleteTask_good (ora : Oracles) (s : CtrlState) (t : Task)
    (tr : List Ev) (hcov : trCov tr t) :
    goodEmitB tr (deleteTask ora s t).2 = true := by
  unfold deleteTask
  split
  · rfl
  · rename_i tid ht
    split
    · rfl
    · split
      · rfl
      · split
        · rfl
        · split
          · rfl
          · rw [goodEmitB_extDelete]
            exact hcov tid ht

theorem deleteTasks_core (ora : Oracles) (ts : List Task) :
    ∀ s, SameCore s (deleteTasks ora s ts).1 := by
  induction ts with
  | nil => intro s; exact sameCore_refl s
  | cons t rest ih =>
    intro s
    unfold deleteTasks
    rw [foldSE_cons]
    exact sameCore_trans (deleteTask_core ora s t) (ih (deleteTask ora s t).1)

theorem deleteTasks_good (ora : Oracles) (ts : List Task) :
    ∀ (s : CtrlState) (tr : List Ev), (∀ t ∈ ts, trCov tr t) →
      goodEmitB tr (deleteTasks ora s ts).2 = true := by
  induction ts with
  | nil => intro s tr _; rfl
  | cons t rest ih =>
    intro s tr hcov
    unfold deleteTasks
    rw [foldSE_cons, goodEmitB_append, Bool.and_eq_true]
    refine ⟨deleteTask_good ora s t tr (hcov t (by simp)), ?_⟩
    exact ih _ (tr ++ _)
      (fun x hx => trCov_mono (fun e he => by simp [he]) (hcov x (by simp [hx])))

theorem deleteParentIfReady_core (ora : Oracles) (s : CtrlState)
    (pid : Option String) : SameCore s (deleteParentIfReady ora s pid).1 := by
  unfold deleteParentIfReady
  split
  · exact sameCore_refl s
  · split
    · exact sameCore_refl s
    · split
      · exact sameCore_refl s
      · split
        · exact deleteTask_core ora s _
        · exact sameCore_refl s

theorem deleteParentIfReady_good (ora : Oracles) (s : CtrlState)
    (pid : Option String) (tr : List Ev) (hcov : RootCovOrNil s tr) :
    goodEmitB tr (deleteParentIfReady ora s pid).2 = true := by
  unfold deleteParentIfReady
  split
  · rfl
  · split
    · rfl
    · split
      · rfl
      · split
        · rename_i p hp hup parent hfind
          refine deleteTask_good ora s parent tr ?_
          intro tid hid
          have hmem := List.mem_of_find?_eq_some hfind
          rcases hcov with hnil | ⟨C, hC⟩
          · rw [hnil] at hmem
            cases hmem
          · exact List.any_eq_true.mpr ⟨_, hC, coversB_of_root hmem hid⟩
        · rfl

theorem persistStep_core (ora : Oracles) (s : CtrlState) :
    SameCore s (persistStep ora s).1 :=
  ⟨rfl, rfl, rfl, rfl, rfl, rfl, rfl, rfl⟩

/-- A pure-deletion function preserves the invariant provided its
events are covered; packaged for `deleteParentIfReady`. -/
theorem inv_deleteParentIfReady {s : CtrlState} {tr : List Ev}
    (ora : Oracles) (pid : Option String) (h : Inv s tr)
    (hcov : RootCovOrNil s tr) :
    Inv (deleteParentIfReady ora s pid).1
      (tr ++ (deleteParentIfReady ora s pid).2) :=
  inv_of_sameCore h (deleteParentIfReady_core ora s pid)
    (deleteParentIfReady_good ora s pid tr hcov)

theorem persistStep_ev (ora : Oracles) (s : CtrlState) :
    (persistStep ora s).2.2 =
      Ev.persist (!ora.pf s.persistCalls) s.rootsSorter.sorted
        s.childrenSortedByParent := rfl

theorem persistStep_ok_ev (ora : Oracles) (s : CtrlState)
    (hok : (persistStep ora s).2.1 = true) :
    (persistStep ora s).2.2 =
      Ev.persist true s.rootsSorter.sorted s.childrenSortedByParent := by
  have h : (!ora.pf s.persistCalls) = true := hok
  rw [persistStep_ev, h]

theorem inv_persist {s : CtrlState} {tr : List Ev} (ora : Oracles)
    (h : Inv s tr) :
    Inv (persistStep ora s).1 (tr ++ [(persistStep ora s).2.2]) :=
  inv_of_sameCore h (persistStep_core ora s) rfl

theorem inv_trivial_update {s : CtrlState} {tr : List Ev} (h : Inv s tr)
    (pid : String) (child : Task) :
    Inv { s with
      childrenRemainingByParent := setA s.childrenRemainingByParent pid []
      childrenSortedByParent := appendA s.childrenSortedByParent pid child }
      tr := by
  constructor
  · exact h.good
  · exact h.rsInv
  · exact h.flagRoot
  · exact h.flagCov
  · intro p q c hq hc
    rcases h.queue p q c hq hc with ⟨hcur, cs, hcs, hw, hmem⟩ | ⟨hcur, hsome⟩
    · exact Or.inl ⟨hcur, cs, hcs, hw, hmem⟩
    · exact Or.inr ⟨hcur, lookupA_isSome_appendA _ _ _ _ hsome⟩

theorem rootCovOrNil_of_eq {s s' : CtrlState} {tr tr' : List Ev}
    (he : s'.rootsSorter = s.rootsSorter) (hsub : ∀ e ∈ tr, e ∈ tr')
    (h : RootCovOrNil s tr) : RootCovOrNil s' tr' := by
  unfold RootCovOrNil
  rw [he]
  exact rootCovOrNil_mono hsub h

theorem trace_shape (tr : List Ev) (e : Ev) (l1 l2 : List Ev) :
    tr ++ (e :: (l1 ++ l2)) = ((tr ++ [e]) ++ l1) ++ l2 := by
  simp

theorem autoPlaceOne_inv (ora : Oracles) (pid : String) {s : CtrlState}
    {tr : List Ev} (h : Inv s tr) (hcov : RootCovOrNil s tr) :
    Inv (autoPlaceOne ora s pid).1 (tr ++ (autoPlaceOne ora s pid).2) ∧
    RootCovOrNil (autoPlaceOne ora s pid).1
      (tr ++ (autoPlaceOne ora s pid).2) := by
  rcases hrem : (lookupA s.childrenRemainingByParent pid).getD []
    with _ | ⟨child, _ | ⟨c2, rest⟩⟩
  · simp only [autoPlaceOne, hrem]
    refine ⟨inv_deleteParentIfReady ora (some pid) h hcov, ?_⟩
    exact rootCovOrNil_of_eq (deleteParentIfReady_core ora s (some pid)).1
      (fun e he => by simp [he]) hcov
  · simp only [autoPlaceOne, hrem]
    set s1 : CtrlState := trivialPlace s pid child
    have h1 : Inv s1 tr := inv_trivial_update h pid child
    have h2 : Inv (persistStep ora s1).1 (tr ++ [(persistStep ora s1).2.2]) :=
      inv_persist ora h1
    by_cases hok : (persistStep ora s1).2.1 = true
    · rw [if_pos hok]
      have hev := persistStep_ok_ev ora s1 hok
      have hevmem : Ev.persist true s1.rootsSorter.sorted
          s1.childrenSortedByParent ∈ tr ++ [(persistStep ora s1).2.2] := by
        rw [← hev]
        simp
      have hcovChild : trCov (tr ++ [(persistStep ora s1).2.2]) child := by
        intro tid hid
        refine List.any_eq_true.mpr ⟨(persistStep ora s1).2.2, by simp, ?_⟩
        rw [hev]
        obtain ⟨l, hl, hx⟩ := appendA_self_mem s.childrenSortedByParent pid child
        exact coversB_of_child ⟨(pid, l), hl, hx⟩ hid
      have h3 : Inv (deleteTask ora (persistStep ora s1).1 child).1
          ((tr ++ [(persistStep ora s1).2.2]) ++
            (deleteTask ora (persistStep ora s1).1 child).2) :=
        inv_of_sameCore h2 (deleteTask_core ora _ child)
          (deleteTask_good ora _ child _ hcovChild)
      have hcov3 : RootCovOrNil (deleteTask ora (persistStep ora s1).1 child).1
          ((tr ++ [(persistStep ora s1).2.2]) ++
            (deleteTask ora (persistStep ora s1).1 child).2) := by
        refine Or.inr ⟨s1.childrenSortedByParent, ?_⟩
        have he : (deleteTask ora (persistStep ora s1).1 child).1.rootsSorter
            = s1.rootsSorter :=
          (deleteTask_core ora _ child).1.trans (persistStep_core ora s1).1
        rw [he]
        exact List.mem_append.mpr (Or.inl hevmem)
      have h4 := inv_deleteParentIfReady ora (some pid) h3 hcov3
      have hcov4 : RootCovOrNil
          (deleteParentIfReady ora (deleteTask ora (persistStep ora s1).1
            child).1 (some pid)).1
          ((((tr ++ [(persistStep ora s1).2.2]) ++
            (deleteTask ora (persistStep ora s1).1 child).2)) ++
            (deleteParentIfReady ora (deleteTask ora (persistStep ora s1).1
              child).1 (some pid)).2) :=
        rootCovOrNil_of_eq (deleteParentIfReady_core ora _ (some pid)).1
          (fun e he => List.mem_append.mpr (Or.inl he)) hcov3
      rw [trace_shape]
      exact ⟨h4, hcov4⟩
    · rw [if_neg hok]
      refine ⟨h2, ?_⟩
      exact rootCovOrNil_of_eq (persistStep_core ora s1).1
        (fun e he => by simp [he]) hcov
  · simp only [autoPlaceOne, hrem]
    exact ⟨by simpa using h, rootCovOrNil_mono (by simp) hcov⟩

theorem autoPlace_inv (ora : Oracles) {s : CtrlState} {tr : List Ev}
    (h : Inv s tr) (hcov : RootCovOrNil s tr) :
    Inv (autoPlace ora s).1 (tr ++ (autoPlace ora s).2) ∧
    RootCovOrNil (autoPlace ora s).1 (tr ++ (autoPlace ora s).2) := by
  unfold autoPlace
  exact foldSE_induction (autoPlaceOne ora)
    (fun st tr2 => Inv st tr2 ∧ RootCovOrNil st tr2)
    (s.childrenRemainingByParent.map Prod.fst) s tr ⟨h, hcov⟩
    (fun s' tr' a _ hP => autoPlaceOne_inv ora a hP.1 hP.2)

theorem activateAux_inv (ora : Oracles) (pids : List String) :
    ∀ (s : CtrlState) (tr : List Ev), Inv s tr → RootCovOrNil s tr →
      (∀ cs, s.childSorter = some cs →
        PairwiseBinarySorter.has_work cs = false) →
      Inv (activateAux ora s pids).1 (tr ++ (activateAux ora s pids).2.1) ∧
      RootCovOrNil (activateAux ora s pids).1
        (tr ++ (activateAux ora s pids).2.1) := by
  induction pids with
  | nil =>
    intro s tr h hcov _
    simp only [activateAux, List.append_nil]
    exact ⟨⟨h.good, h.rsInv, h.flagRoot, h.flagCov, h.queue⟩,
      rootCovOrNil_mono (fun e he => he) hcov⟩
  | cons pid rest ih =>
    intro s tr h hcov hna
    simp only [activateAux]
    by_cases hfin : (lookupA s.childrenSortedByParent pid).isSome = true
    · rw [if_pos hfin]
      have h1 := inv_deleteParentIfReady ora (some pid) h hcov
      have hcov1 : RootCovOrNil (deleteParentIfReady ora s (some pid)).1
          (tr ++ (deleteParentIfReady ora s (some pid)).2) :=
        rootCovOrNil_of_eq (deleteParentIfReady_core ora s (some pid)).1
          (fun e he => List.mem_append.mpr (Or.inl he)) hcov
      have hna1 : ∀ cs, (deleteParentIfReady ora s (some pid)).1.childSorter
          = some cs → PairwiseBinarySorter.has_work cs = false := by
        intro cs hcs
        refine hna cs ?_
        rw [← (deleteParentIfReady_core ora s (some pid)).2.2.2.2.2.2.1]
        exact hcs
      have h2 := ih (deleteParentIfReady ora s (some pid)).1
        (tr ++ (deleteParentIfReady ora s (some pid)).2) h1 hcov1 hna1
      rw [List.append_assoc] at h2
      exact h2
    · rw [if_neg hfin]
      by_cases hempty :
          ((lookupA s.childrenRemainingByParent pid).getD []).isEmpty = true
      · rw [if_pos hempty]
        have h1 := inv_deleteParentIfReady ora (some pid) h hcov
        have hcov1 : RootCovOrNil (deleteParentIfReady ora s (some pid)).1
            (tr ++ (deleteParentIfReady ora s (some pid)).2) :=
          rootCovOrNil_of_eq (deleteParentIfReady_core ora s (some pid)).1
            (fun e he => List.mem_append.mpr (Or.inl he)) hcov
        have hna1 : ∀ cs, (deleteParentIfReady ora s (some pid)).1.childSorter
            = some cs → PairwiseBinarySorter.has_work cs = false := by
          intro cs hcs
          refine hna cs ?_
          rw [← (deleteParentIfReady_core ora s (some pid)).2.2.2.2.2.2.1]
          exact hcs
        have h2 := ih (deleteParentIfReady ora s (some pid)).1
          (tr ++ (deleteParentIfReady ora s (some pid)).2) h1 hcov1 hna1
        rw [List.append_assoc] at h2
        exact h2
      · rw [if_neg hempty]
        refine ⟨?_, ?_⟩
        · refine ⟨by simpa using h.good, h.rsInv, h.flagRoot,
            by simpa using h.flagCov, ?_⟩
          intro p q c hq hc
          rcases h.queue p q c hq hc with ⟨hcur, cs, hcs, hw, hmem⟩ |
            ⟨hcur, hsome⟩
          · exact absurd hw (by simp [hna cs hcs])
          · by_cases hp : p = pid
            · subst hp
              exact absurd hsome (by simp [hfin])
            · refine Or.inr ⟨?_, hsome⟩
              simp only
              intro hcon
              injection hcon with hcon
              exact hp hcon.symm
        · simpa using (rootCovOrNil_mono (fun e he => he) hcov :
            RootCovOrNil s tr)

theorem inv_set_rootsSorter {s : CtrlState} {tr : List Ev} (h : Inv s tr)
    (rs' : PairwiseBinarySorter)
    (hinv : PairwiseBinarySorter.SorterInv rs')
    (hflag : s.persistedAfterAutoRoot = false) :
    Inv { s with rootsSorter := rs' } tr := by
  refine ⟨h.good, hinv, ?_, ?_, h.queue⟩
  · intro hf
    exact absurd hf (by simp [hflag])
  · intro hf
    exact absurd hf (by simp [hflag])

/-- All entries of the active parent's delete queue (after queuing the
just-placed child) are in the finishing sorter's ordered sequence. -/
theorem queue_sub_sorted {s : CtrlState} {tr : List Ev} (h : Inv s tr)
    {pid : String} {cs : PairwiseBinarySorter} {left : Bool}
    {placedChild : Task}
    (hcur : s.currentParentId = some pid) (hcs : s.childSorter = some cs)
    (hd : (PairwiseBinarySorter.decide cs left).1 = some placedChild) :
    ∀ c ∈ (lookupA (appendA s.pendingChildDeletes pid placedChild) pid).getD [],
      c ∈ ((PairwiseBinarySorter.decide cs left).2).sorted := by
  intro c hc
  rw [lookupA_appendA_self] at hc
  simp only [Option.getD_some] at hc
  rcases List.mem_append.mp hc with hc | hc
  · cases hold : lookupA s.pendingChildDeletes pid with
    | none =>
      rw [hold] at hc
      simp at hc
    | some q0 =>
      rw [hold] at hc
      simp only [Option.getD_some] at hc
      rcases h.queue pid q0 c hold hc with ⟨_, cs0, hcs0, _, hmem⟩ | ⟨hne, _⟩
      · have he : cs0 = cs := by
          rw [hcs0] at hcs
          exact Option.some.inj hcs
        rw [he] at hmem
        exact (PairwiseBinarySorter.decide_sorted_mono cs left).subset hmem
      · exact absurd hcur hne
  · simp only [List.mem_singleton] at hc
    subst hc
    exact PairwiseBinarySorter.decide_placed_mem cs left c hd

/-- During an active child session for `pid`, a nonempty queue of any
other parent is in the stale (already-finalized) state. -/
theorem queue_other {s : CtrlState} {tr : List Ev} (h : Inv s tr)
    {pid : String} (hcur : s.currentParentId = some pid) {p : String}
    {q : List Task} {c : Task} (hp : p ≠ pid)
    (hq : lookupA s.pendingChildDeletes p = some q) (hc : c ∈ q) :
    s.currentParentId ≠ some p ∧
    (lookupA s.childrenSortedByParent p).isSome = true := by
  rcases h.queue p q c hq hc with ⟨hcur2, _⟩ | hgood
  · rw [hcur] at hcur2
    exact absurd (Option.some.inj hcur2).symm hp
  · exact hgood


theorem trace_cons (tr : List Ev) (e : Ev) (l : List Ev) :
    tr ++ (e :: l) = (tr ++ [e]) ++ l := by
  simp

/-- The persist-succeeded tail of a finishing child session preserves
the invariant: every queued child is covered (it sits in the snapshot
just written), and the parent deletion is covered by the same persist. -/
theorem childFinishOk_inv (ora : Oracles) (st : CtrlState) (tr' : List Ev)
    (pid : String)
    (hgood : goodEmitB [] tr' = true)
    (hrs : PairwiseBinarySorter.SorterInv st.rootsSorter)
    (hfr : st.persistedAfterAutoRoot = true →
      PairwiseBinarySorter.has_work st.rootsSorter = false)
    (hfc : st.persistedAfterAutoRoot = true →
      ∃ C, Ev.persist true st.rootsSorter.sorted C ∈ tr')
    (hqcov : ∀ t ∈ (lookupA st.pendingChildDeletes pid).getD [], trCov tr' t)
    (hrootcov : ∃ C, Ev.persist true st.rootsSorter.sorted C ∈ tr')
    (hq2 : ∀ p q c, p ≠ pid → lookupA st.pendingChildDeletes p = some q →
      c ∈ q → (lookupA st.childrenSortedByParent p).isSome = true) :
    Inv (childFinishOk ora st pid).1 (tr' ++ (childFinishOk ora st pid).2) := by
  have core1 : SameCore st
      (deleteTasks ora st ((lookupA st.pendingChildDeletes pid).getD [])).1 :=
    deleteTasks_core ora _ st
  have hg1 : goodEmitB tr'
      (deleteTasks ora st ((lookupA st.pendingChildDeletes pid).getD [])).2
      = true :=
    deleteTasks_good ora _ st tr' hqcov
  have hcov4 : RootCovOrNil
      (dropQueue (deleteTasks ora st
        ((lookupA st.pendingChildDeletes pid).getD [])).1 pid)
      (tr' ++ (deleteTasks ora st
        ((lookupA st.pendingChildDeletes pid).getD [])).2) := by
    obtain ⟨C, hC⟩ := hrootcov
    refine Or.inr ⟨C, ?_⟩
    show Ev.persist true (deleteTasks ora st
      ((lookupA st.pendingChildDeletes pid).getD [])).1.rootsSorter.sorted C
      ∈ _
    rw [core1.1]
    exact List.mem_append.mpr (Or.inl hC)
  have core2 : SameCore
      (dropQueue (deleteTasks ora st
        ((lookupA st.pendingChildDeletes pid).getD [])).1 pid)
      (deleteParentIfReady ora (dropQueue (deleteTasks ora st
        ((lookupA st.pendingChildDeletes pid).getD [])).1 pid) (some pid)).1 :=
    deleteParentIfReady_core ora _ (some pid)
  have hg2 := deleteParentIfReady_good ora
    (dropQueue (deleteTasks ora st
      ((lookupA st.pendingChildDeletes pid).getD [])).1 pid)
    (some pid) _ hcov4
  have hroots5 : (childFinishOk ora st pid).1.rootsSorter = st.rootsSorter :=
    core2.1.trans core1.1
  have hflag5 : (childFinishOk ora st pid).1.persistedAfterAutoRoot
      = st.persistedAfterAutoRoot :=
    core2.2.2.2.2.2.2.2.trans core1.2.2.2.2.2.2.2
  have hpend5 : (childFinishOk ora st pid).1.pendingChildDeletes
      = setA st.pendingChildDeletes pid [] := by
    have t1 := core2.2.2.2.1
    refine t1.trans ?_
    show setA (deleteTasks ora st
      ((lookupA st.pendingChildDeletes pid).getD
        [])).1.pendingChildDeletes pid [] = _
    rw [core1.2.2.2.1]
  have hcs5 : (childFinishOk ora st pid).1.childrenSortedByParent
      = st.childrenSortedByParent := by
    have t1 := core2.2.1
    refine t1.trans ?_
    exact core1.2.1
  have htr : tr' ++ (childFinishOk ora st pid).2 =
      (tr' ++ (deleteTasks ora st
        ((lookupA st.pendingChildDeletes pid).getD [])).2) ++
      (deleteParentIfReady ora (dropQueue (deleteTasks ora st
        ((lookupA st.pendingChildDeletes pid).getD [])).1 pid)
        (some pid)).2 := by
    rw [show (childFinishOk ora st pid).2 = (deleteTasks ora st
      ((lookupA st.pendingChildDeletes pid).getD [])).2 ++
      (deleteParentIfReady ora (dropQueue (deleteTasks ora st
        ((lookupA st.pendingChildDeletes pid).getD [])).1 pid)
        (some pid)).2 from rfl, List.append_assoc]
  refine ⟨?_, ?_, ?_, ?_, ?_⟩
  · rw [htr]
    exact good_extend (good_extend hgood hg1) hg2
  · rw [hroots5]
    exact hrs
  · intro hf
    rw [hflag5] at hf
    rw [hroots5]
    exact hfr hf
  · intro hf
    rw [hflag5] at hf
    obtain ⟨C, hC⟩ := hfc hf
    refine ⟨C, ?_⟩
    rw [hroots5, htr]
    exact List.mem_append.mpr (Or.inl (List.mem_append.mpr (Or.inl hC)))
  · intro p q0 c hq hc
    rw [hpend5] at hq
    by_cases hp : p = pid
    · subst hp
      rw [lookupA_setA_self] at hq
      have hq0 : q0 = [] := (Option.some.inj hq).symm
      subst hq0
      cases hc
    · rw [lookupA_setA_ne _ _ _ _ hp] at hq
      have hsome := hq2 p q0 c hp hq hc
      refine Or.inr ⟨?_, ?_⟩
      · intro hcon
        rw [show (childFinishOk ora st pid).1.currentParentId = none from rfl]
          at hcon
        cases hcon
      · rw [hcs5]
        exact hsome


/-- A finishing child session preserves the invariant whatever the
persist outcome: deletions happen only in the succeeded branch, covered
by the persist that just recorded the final order; a failed persist
leaves the queue in place and the session reset. -/
theorem childFinish_inv (ora : Oracles) (s2 : CtrlState) (tr : List Ev)
    (pid : String) (finalSorted : List Task)
    (hgood : goodEmitB [] tr = true)
    (hrs : PairwiseBinarySorter.SorterInv s2.rootsSorter)
    (hfr : s2.persistedAfterAutoRoot = true →
      PairwiseBinarySorter.has_work s2.rootsSorter = false)
    (hfc : s2.persistedAfterAutoRoot = true →
      ∃ C, Ev.persist true s2.rootsSorter.sorted C ∈ tr)
    (hq1 : ∀ c ∈ (lookupA s2.pendingChildDeletes pid).getD [],
      c ∈ finalSorted)
    (hq2 : ∀ p q c, p ≠ pid → lookupA s2.pendingChildDeletes p = some q →
      c ∈ q → (lookupA s2.childrenSortedByParent p).isSome = true) :
    Inv (childFinish ora s2 pid finalSorted).1
      (tr ++ (childFinish ora s2 pid finalSorted).2) := by
  simp only [childFinish]
  by_cases hok :
      (persistStep ora (recordFinal s2 pid finalSorted)).2.1 = true
  · rw [if_pos hok, trace_cons]
    refine childFinishOk_inv ora _ _ pid ?_ ?_ ?_ ?_ ?_ ?_ ?_
    · exact good_extend hgood rfl
    · exact hrs
    · intro hf
      exact hfr hf
    · intro hf
      obtain ⟨C, hC⟩ := hfc hf
      exact ⟨C, List.mem_append.mpr (Or.inl hC)⟩
    · intro t ht tid hid
      refine List.any_eq_true.mpr
        ⟨(persistStep ora (recordFinal s2 pid finalSorted)).2.2, by simp, ?_⟩
      rw [persistStep_ok_ev ora _ hok]
      exact coversB_of_child ⟨(pid, finalSorted), setA_self_mem _ _ _,
        hq1 t ht⟩ hid
    · refine ⟨setA s2.childrenSortedByParent pid finalSorted,
        List.mem_append.mpr (Or.inr ?_)⟩
      rw [persistStep_ok_ev ora _ hok]
      exact List.mem_singleton.mpr rfl
    · intro p q c hp hq hc
      show (lookupA (setA s2.childrenSortedByParent pid finalSorted)
        p).isSome = true
      exact lookupA_isSome_setA _ _ _ _ (hq2 p q c hp hq hc)
  · rw [if_neg hok]
    refine ⟨?_, ?_, ?_, ?_, ?_⟩
    · exact good_extend hgood rfl
    · exact hrs
    · intro hf
      exact hfr hf
    · intro hf
      obtain ⟨C, hC⟩ := hfc hf
      exact ⟨C, List.mem_append.mpr (Or.inl hC)⟩
    · intro p q c hq hc
      by_cases hp : p = pid
      · subst hp
        refine Or.inr ⟨fun hcon => (nomatch hcon), ?_⟩
        show (lookupA (setA s2.childrenSortedByParent p finalSorted)
          p).isSome = true
        rw [lookupA_setA_self]
        rfl
      · have hsome := hq2 p q c hp hq hc
        refine Or.inr ⟨fun hcon => (nomatch hcon), ?_⟩
        show (lookupA (setA s2.childrenSortedByParent pid finalSorted)
          p).isSome = true
        exact lookupA_isSome_setA _ _ _ _ hsome


/-- A decision step preserves the invariant. -/
theorem ctrlDecide_inv (ora : Oracles) (left : Bool) {s : CtrlState}
    {tr : List Ev} (h : Inv s tr) :
    Inv (ctrlDecide ora s left).1 (tr ++ (ctrlDecide ora s left).2) := by
  by_cases hw : PairwiseBinarySorter.has_work s.rootsSorter = true
  · have hflag : s.persistedAfterAutoRoot = false := by
      cases hf : s.persistedAfterAutoRoot
      · rfl
      · have h2 := h.flagRoot hf
        rw [h2] at hw
        simp at hw
    have h1 : Inv (setRootSorter s
        (PairwiseBinarySorter.decide s.rootsSorter left).2) tr :=
      inv_set_rootsSorter h _
        (PairwiseBinarySorter.decide_preserves left h.rsInv) hflag
    have h2 := inv_persist ora h1
    simp only [ctrlDecide, if_pos hw]
    split
    · rw [List.append_nil]
      exact h1
    · rename_i placedRoot hd
      split
      · exact h2
      · rename_i hnot
        have hok : (persistStep ora (setRootSorter s
            (PairwiseBinarySorter.decide s.rootsSorter left).2)).2.1
            = true := by
          revert hnot
          cases (persistStep ora (setRootSorter s
            (PairwiseBinarySorter.decide s.rootsSorter left).2)).2.1 <;> simp
        split
        · rename_i pid hpid
          split
          · exact h2
          · rename_i hpe
            split
            · rename_i hD
              exact absurd hD (by simp [DELETE_PARENTS_IMMEDIATELY])
            · have hcovP : RootCovOrNil (persistStep ora (setRootSorter s
                  (PairwiseBinarySorter.decide s.rootsSorter left).2)).1
                  (tr ++ [(persistStep ora (setRootSorter s
                    (PairwiseBinarySorter.decide s.rootsSorter
                      left).2)).2.2]) := by
                refine Or.inr ⟨(setRootSorter s
                  (PairwiseBinarySorter.decide s.rootsSorter
                    left).2).childrenSortedByParent,
                  List.mem_append.mpr (Or.inr ?_)⟩
                rw [persistStep_ok_ev ora _ hok]
                exact List.mem_singleton.mpr rfl
              have h3 := inv_deleteParentIfReady ora (some pid) h2 hcovP
              rw [trace_cons]
              exact h3
        · exact h2
  · simp only [ctrlDecide, if_neg hw]
    split
    · rename_i pid cs hcur hcs
      split
      · rw [List.append_nil]
        exact h
      · rename_i hpe
        split
        · rename_i hd
          rw [List.append_nil]
          refine ⟨h.good, h.rsInv, h.flagRoot, h.flagCov, ?_⟩
          intro p q c hq hc
          rcases h.queue p q c hq hc with
            ⟨hcur2, cs0, hcs0, hw0, hmem⟩ | ⟨hne, hsome⟩
          · have he : cs0 = cs := by
              rw [hcs0] at hcs
              exact Option.some.inj hcs
            subst he
            refine Or.inl ⟨hcur2,
              (PairwiseBinarySorter.decide cs0 left).2, rfl, ?_, ?_⟩
            · exact PairwiseBinarySorter.decide_none_has_work cs0 left hd hw0
            · exact (PairwiseBinarySorter.decide_sorted_mono cs0
                left).subset hmem
          · exact Or.inr ⟨hne, hsome⟩
        · rename_i placedChild hd
          split
          · rename_i hwn
            rw [List.append_nil]
            refine ⟨h.good, h.rsInv, h.flagRoot, h.flagCov, ?_⟩
            intro p q c hq hc
            by_cases hp : p = pid
            · subst hp
              replace hq : lookupA (appendA s.pendingChildDeletes p
                  placedChild) p = some q := hq
              rw [lookupA_appendA_self] at hq
              have hql := Option.some.inj hq
              have hcm : c ∈ ((PairwiseBinarySorter.decide cs
                  left).2).sorted := by
                refine queue_sub_sorted h hcur hcs hd c ?_
                rw [lookupA_appendA_self]
                rw [← hql] at hc
                simpa using hc
              exact Or.inl ⟨hcur, (PairwiseBinarySorter.decide cs left).2,
                rfl, hwn, hcm⟩
            · replace hq : lookupA (appendA s.pendingChildDeletes pid
                  placedChild) p = some q := hq
              rw [lookupA_appendA_ne _ _ _ _ hp] at hq
              exact Or.inr (queue_other h hcur hp hq hc)
          · refine childFinish_inv ora _ tr pid _ h.good h.rsInv h.flagRoot
              h.flagCov ?_ ?_
            · intro c hc
              replace hc : c ∈ (lookupA (appendA s.pendingChildDeletes pid
                  placedChild) pid).getD [] := hc
              exact queue_sub_sorted h hcur hcs hd c hc
            · intro p q c hp hq hc
              replace hq : lookupA (appendA s.pendingChildDeletes pid
                  placedChild) p = some q := hq
              rw [lookupA_appendA_ne _ _ _ _ hp] at hq
              exact (queue_other h hcur hp hq hc).2
    · rw [List.append_nil]
      exact h

theorem step2_inv (ora : Oracles) (s : CtrlState) (tr : List Ev)
    (h : Inv s tr)
    (hnw : PairwiseBinarySorter.has_work s.rootsSorter = false) :
    Inv (step2 ora s).1 (tr ++ (step2 ora s).2.1) ∧
    ((step2 ora s).2.2 = false →
      RootCovOrNil (step2 ora s).1 (tr ++ (step2 ora s).2.1)) := by
  simp only [step2]
  split
  · rename_i hcond
    split
    · rename_i hok
      constructor
      · refine ⟨good_extend h.good rfl, h.rsInv, ?_, ?_, h.queue⟩
        · intro _
          exact hnw
        · intro _
          refine ⟨s.childrenSortedByParent, List.mem_append.mpr (Or.inr ?_)⟩
          rw [persistStep_ok_ev ora s hok]
          exact List.mem_singleton.mpr rfl
      · intro _
        refine Or.inr ⟨s.childrenSortedByParent,
          List.mem_append.mpr (Or.inr ?_)⟩
        rw [persistStep_ok_ev ora s hok]
        exact List.mem_singleton.mpr rfl
    · constructor
      · exact inv_persist ora h
      · intro hfalse
        simp at hfalse
  · rename_i hcond
    constructor
    · show Inv s (tr ++ [])
      rw [List.append_nil]
      exact h
    · intro _
      show RootCovOrNil s (tr ++ [])
      rw [List.append_nil]
      have hfs : s.persistedAfterAutoRoot = true ∨
          s.rootsSorter.sorted = [] := by
        by_cases hf : s.persistedAfterAutoRoot = true
        · exact Or.inl hf
        · refine Or.inr ?_
          have hf2 : s.persistedAfterAutoRoot = false := by
            revert hf
            cases s.persistedAfterAutoRoot <;> simp
          rw [hf2] at hcond
          simpa using hcond
      rcases hfs with hf | hs
      · rcases h.flagCov hf with ⟨C, hC⟩
        exact Or.inr ⟨C, hC⟩
      · exact Or.inl hs

theorem autoPlaceOne_childSorter (ora : Oracles) (s : CtrlState)
    (pid : String) :
    (autoPlaceOne ora s pid).1.childSorter = s.childSorter := by
  simp only [autoPlaceOne]
  split
  · exact (deleteParentIfReady_core ora s (some pid)).2.2.2.2.2.2.1
  · split
    · rename_i hok
      refine ((deleteParentIfReady_core ora _ (some pid)).2.2.2.2.2.2.1).trans
        ?_
      exact (deleteTask_core ora _ _).2.2.2.2.2.2.1
    · rfl
  · rfl

theorem autoPlace_childSorter (ora : Oracles) (s : CtrlState) :
    (autoPlace ora s).1.childSorter = s.childSorter := by
  unfold autoPlace
  exact foldSE_induction (autoPlaceOne ora)
    (fun st _ => st.childSorter = s.childSorter)
    (s.childrenRemainingByParent.map Prod.fst) s [] rfl
    (fun s' tr' a _ hP => (autoPlaceOne_childSorter ora s' a).trans hP)

theorem step3_inv (ora : Oracles) (s2 : CtrlState) (tr : List Ev)
    (h : Inv s2 tr) (hcov : RootCovOrNil s2 tr) :
    Inv (step3 ora s2).1 (tr ++ (step3 ora s2).2) ∧
    RootCovOrNil (step3 ora s2).1 (tr ++ (step3 ora s2).2) := by
  simp only [step3]
  split
  · have hb : Inv (buildParentOrder s2) tr :=
      ⟨h.good, h.rsInv, h.flagRoot, h.flagCov, h.queue⟩
    have hbc : RootCovOrNil (buildParentOrder s2) tr := hcov
    exact autoPlace_inv ora hb hbc
  · constructor
    · show Inv s2 (tr ++ [])
      rw [List.append_nil]
      exact h
    · show RootCovOrNil s2 (tr ++ [])
      rw [List.append_nil]
      exact hcov

theorem setChildSorter_pair_inv (s4 : CtrlState) (tr : List Ev)
    (cs : PairwiseBinarySorter) (h : Inv s4 tr)
    (heq : s4.childSorter = some cs) :
    Inv (setChildSorter s4 (PairwiseBinarySorter.current_pair cs).st) tr := by
  refine ⟨h.good, h.rsInv, h.flagRoot, h.flagCov, ?_⟩
  intro p q c hq hc
  rcases h.queue p q c hq hc with ⟨hcur2, cs0, hcs0, hw0, hmem⟩ | h2
  · have he : cs0 = cs := by
      rw [hcs0] at heq
      exact Option.some.inj heq
    subst he
    refine Or.inl ⟨hcur2, (PairwiseBinarySorter.current_pair cs0).st, rfl,
      ?_, ?_⟩
    · exact PairwiseBinarySorter.current_pair_keeps_work cs0
        (List.ne_nil_of_mem hmem) hw0
    · exact (PairwiseBinarySorter.current_pair_sorted_mono cs0).subset hmem
  · exact Or.inr h2

theorem step4b_inv (ora : Oracles) (s4 : CtrlState) (tr : List Ev)
    (h : Inv s4 tr) (hcov : RootCovOrNil s4 tr)
    (hna : ∀ cs, s4.childSorter = some cs →
      PairwiseBinarySorter.has_work cs = false) :
    Inv (step4b ora s4).1 (tr ++ (step4b ora s4).2.1) := by
  simp only [step4b]
  have hA := activateAux_inv ora s4.parentOrderIds s4 tr h hcov hna
  split
  · exact hA.1
  · split
    · rename_i cs2 heq2
      show Inv (setChildSorter (activateNextParentGroup ora s4).1
        (PairwiseBinarySorter.current_pair cs2).st)
        (tr ++ (activateNextParentGroup ora s4).2.1)
      exact setChildSorter_pair_inv _ _ _ hA.1 heq2
    · exact hA.1

theorem step4_inv (ora : Oracles) (s4 : CtrlState) (tr : List Ev)
    (h : Inv s4 tr) (hcov : RootCovOrNil s4 tr) :
    Inv (step4 ora s4).1 (tr ++ (step4 ora s4).2.1) := by
  simp only [step4]
  split
  · rename_i cs heq
    split
    · rename_i hwcs
      show Inv (setChildSorter s4 (PairwiseBinarySorter.current_pair cs).st)
        (tr ++ [])
      rw [List.append_nil]
      exact setChildSorter_pair_inv s4 tr cs h heq
    · rename_i hwcs
      refine step4b_inv ora s4 tr h hcov ?_
      intro cs' hcs'
      rw [heq] at hcs'
      have he := Option.some.inj hcs'
      rw [← he]
      revert hwcs
      cases PairwiseBinarySorter.has_work cs <;> simp
  · rename_i heq
    refine step4b_inv ora s4 tr h hcov ?_
    intro cs' hcs'
    rw [heq] at hcs'
    cases hcs'

theorem afterRoots_inv (ora : Oracles) {s : CtrlState} {tr : List Ev}
    (h : Inv s tr)
    (hnw : PairwiseBinarySorter.has_work s.rootsSorter = false) :
    Inv (afterRoots ora s).1 (tr ++ (afterRoots ora s).2.1) := by
  simp only [afterRoots]
  have h2 := step2_inv ora s tr h hnw
  split
  · exact h2.1
  · rename_i hno
    have hfalse : (step2 ora s).2.2 = false := by
      revert hno
      cases (step2 ora s).2.2 <;> simp
    have hcov2 := h2.2 hfalse
    have h3 := step3_inv ora (step2 ora s).1 (tr ++ (step2 ora s).2.1)
      h2.1 hcov2
    have h4 := step4_inv ora (step3 ora (step2 ora s).1).1 _ h3.1 h3.2
    have hsh : tr ++ ((step2 ora s).2.1 ++ ((step3 ora (step2 ora s).1).2 ++
        (step4 ora (step3 ora (step2 ora s).1).1).2.1)) =
        ((tr ++ (step2 ora s).2.1) ++ (step3 ora (step2 ora s).1).2) ++
          (step4 ora (step3 ora (step2 ora s).1).1).2.1 := by
      simp
    rw [hsh]
    exact h4

theorem ctrlCurrentPair_inv (ora : Oracles) {s : CtrlState} {tr : List Ev}
    (h : Inv s tr) :
    Inv (ctrlCurrentPair ora s).1 (tr ++ (ctrlCurrentPair ora s).2.1) := by
  simp only [ctrlCurrentPair]
  split
  · rename_i hw
    have hflag : s.persistedAfterAutoRoot = false := by
      cases hf : s.persistedAfterAutoRoot
      · rfl
      · have h2 := h.flagRoot hf
        rw [h2] at hw
        simp at hw
    have h1 : Inv (setRootSorter s
        (PairwiseBinarySorter.current_pair s.rootsSorter).st) tr :=
      inv_set_rootsSorter h _ (PairwiseBinarySorter.current_pair_preserves
        h.rsInv).1 hflag
    split
    · show Inv (setRootSorter s
        (PairwiseBinarySorter.current_pair s.rootsSorter).st) (tr ++ [])
      rw [List.append_nil]
      exact h1
    · rename_i hpair
      refine afterRoots_inv ora h1 ?_
      exact PairwiseBinarySorter.current_pair_none_no_work h.rsInv hpair
  · rename_i hw
    have hnw : PairwiseBinarySorter.has_work s.rootsSorter = false := by
      revert hw
      cases PairwiseBinarySorter.has_work s.rootsSorter <;> simp
    exact afterRoots_inv ora h hnw

theorem ctrlFlush_inv (ora : Oracles) {s : CtrlState} {tr : List Ev}
    (h : Inv s tr) :
    Inv (ctrlFlush ora s).1 (tr ++ (ctrlFlush ora s).2) := by
  simp only [ctrlFlush]
  split
  · rename_i hok
    have h2 := inv_persist ora h
    have hcov : RootCovOrNil (persistStep ora s).1
        (tr ++ [(persistStep ora s).2.2]) := by
      refine Or.inr ⟨s.childrenSortedByParent,
        List.mem_append.mpr (Or.inr ?_)⟩
      rw [persistStep_ok_ev ora s hok]
      exact List.mem_singleton.mpr rfl
    have h3 := foldSE_induction
      (fun st pid => deleteParentIfReady ora st (some pid))
      (fun st tr2 => Inv st tr2 ∧ RootCovOrNil st tr2)
      ((persistStep ora s).1.childrenRemainingByParent.map Prod.fst)
      (persistStep ora s).1 (tr ++ [(persistStep ora s).2.2]) ⟨h2, hcov⟩
      (fun s' tr' a _ hP => ⟨inv_deleteParentIfReady ora (some a) hP.1 hP.2,
        rootCovOrNil_of_eq (deleteParentIfReady_core ora s' (some a)).1
          (fun e he => List.mem_append.mpr (Or.inl he)) hP.2⟩)
    rw [trace_cons]
    exact h3.1
  · exact inv_persist ora h

theorem ctrlStep_inv (ora : Oracles) (a : Act) {s : CtrlState}
    {tr : List Ev} (h : Inv s tr) :
    Inv (ctrlStep ora s a).1 (tr ++ (ctrlStep ora s a).2) := by
  cases a with
  | decideL => exact ctrlDecide_inv ora true h
  | decideR => exact ctrlDecide_inv ora false h
  | refresh => exact ctrlCurrentPair_inv ora h
  | doFlush => exact ctrlFlush_inv ora h

theorem ctrlRun_inv (ora : Oracles) (acts : List Act) {s : CtrlState}
    {tr : List Ev} (h : Inv s tr) :
    Inv (ctrlRun ora s acts).1 (tr ++ (ctrlRun ora s acts).2) := by
  unfold ctrlRun
  exact foldSE_induction (ctrlStep ora) (fun st tr2 => Inv st tr2) acts s tr h
    (fun s' tr' a _ hP => ctrlStep_inv ora a hP)

theorem mkController_inv (bR : List Task) (bC : List (String × List Task))
    (gR : List Task) (gC : List (String × List Task)) :
    Inv (mkController bR bC gR gC) [] := by
  refine ⟨rfl, ?_, ?_, ?_, ?_⟩
  · exact PairwiseBinarySorter.sorterInv_of_no_frames rfl
  · intro hf
    cases hf
  · intro hf
    cases hf
  · intro p q c hq hc
    cases hq

/-- C1: persist-before-delete.  (a) In every run of the controller from
reconciled inputs, under any action sequence and any pattern of persist
and delete failures, every external deletion is preceded in the event
trace by a successful persist whose snapshot contains the deleted id
(among the roots or in a finalized child group).  (b) When the persist
closing a child session raises, the step emits only the failed persist:
the parent's pending-delete queue still holds every queued child
(including the one just placed), and nothing is marked deleted.
(c) When the per-root persist raises, the step emits only the failed
persist and nothing is marked deleted.  (d) Likewise for the persist in
the trivial single-child path. -/
theorem C1_persist_before_delete :
    (∀ (bR : List Task) (bC : List (String × List Task)) (gR : List Task)
        (gC : List (String × List Task)) (ora : Oracles) (acts : List Act),
      GoodTrace (ctrlRun ora (mkController bR bC gR gC) acts).2) ∧
    (∀ (ora : Oracles) (s : CtrlState) (pid : String)
        (cs cs' : PairwiseBinarySorter) (ch : Task) (left : Bool),
      PairwiseBinarySorter.has_work s.rootsSorter = false →
      s.currentParentId = some pid → pid ≠ "" →
      s.childSorter = some cs →
      PairwiseBinarySorter.decide cs left = (some ch, cs') →
      PairwiseBinarySorter.has_work cs' = false →
      ora.pf s.persistCalls = true →
      (ctrlDecide ora s left).2 =
        [Ev.persist false s.rootsSorter.sorted
          (setA s.childrenSortedByParent pid cs'.sorted)] ∧
      (ctrlDecide ora s left).1.deletedIds = s.deletedIds ∧
      lookupA (ctrlDecide ora s left).1.pendingChildDeletes pid =
        some ((lookupA s.pendingChildDeletes pid).getD [] ++ [ch])) ∧
    (∀ (ora : Oracles) (s : CtrlState) (left : Bool) (placedRoot : Task),
      PairwiseBinarySorter.has_work s.rootsSorter = true →
      (PairwiseBinarySorter.decide s.rootsSorter left).1 = some placedRoot →
      ora.pf s.persistCalls = true →
      (ctrlDecide ora s left).2 =
        [Ev.persist false
          ((PairwiseBinarySorter.decide s.rootsSorter left).2).sorted
          s.childrenSortedByParent] ∧
      (ctrlDecide ora s left).1.deletedIds = s.deletedIds) ∧
    (∀ (ora : Oracles) (s : CtrlState) (pid : String) (child : Task),
      (lookupA s.childrenRemainingByParent pid).getD [] = [child] →
      ora.pf s.persistCalls = true →
      (autoPlaceOne ora s pid).2 =
        [Ev.persist false s.rootsSorter.sorted
          (appendA s.childrenSortedByParent pid child)] ∧
      (autoPlaceOne ora s pid).1.deletedIds = s.deletedIds) := by
  refine ⟨?_, ?_, ?_, ?_⟩
  · intro bR bC gR gC ora acts
    have h := ctrlRun_inv ora acts (mkController_inv bR bC gR gC)
    have hg := h.good
    simpa using hg
  · intro ora s pid cs cs' ch left hnw hcur hpe hcs hd hfin hpf
    have key : ctrlDecide ora s left =
        childFinish ora (queueChildDelete (setChildSorter s cs') pid ch) pid
          cs'.sorted := by
      simp [ctrlDecide, hnw, hcur, hcs, hd, hpe, hfin]
    have hcond : ¬((persistStep ora (recordFinal
        (queueChildDelete (setChildSorter s cs') pid ch) pid
        cs'.sorted)).2.1 = true) := by
      show ¬((!ora.pf s.persistCalls) = true)
      rw [hpf]
      simp
    have key2 : childFinish ora (queueChildDelete (setChildSorter s cs') pid
        ch) pid cs'.sorted =
        (resetSession (persistStep ora (recordFinal
          (queueChildDelete (setChildSorter s cs') pid ch) pid
          cs'.sorted)).1,
         [(persistStep ora (recordFinal
           (queueChildDelete (setChildSorter s cs') pid ch) pid
           cs'.sorted)).2.2]) := by
      simp only [childFinish]
      rw [if_neg hcond]
    refine ⟨?_, ?_, ?_⟩
    · rw [key, key2]
      show [(persistStep ora (recordFinal
        (queueChildDelete (setChildSorter s cs') pid ch) pid
        cs'.sorted)).2.2] = _
      rw [persistStep_ev]
      show [Ev.persist (!ora.pf s.persistCalls) s.rootsSorter.sorted
        (setA s.childrenSortedByParent pid cs'.sorted)] = _
      rw [hpf]
      rfl
    · rw [key, key2]
      rfl
    · rw [key, key2]
      show lookupA (appendA s.pendingChildDeletes pid ch) pid = _
      exact lookupA_appendA_self _ _ _
  · intro ora s left placedRoot hw hd hpf
    simp only [ctrlDecide, if_pos hw, hd]
    have hcond : ((!(persistStep ora (setRootSorter s
        (PairwiseBinarySorter.decide s.rootsSorter left).2)).2.1) = true) := by
      show (!!ora.pf s.persistCalls) = true
      rw [hpf]
      rfl
    rw [if_pos hcond]
    constructor
    · show [(persistStep ora (setRootSorter s
        (PairwiseBinarySorter.decide s.rootsSorter left).2)).2.2] = _
      rw [persistStep_ev]
      show [Ev.persist (!ora.pf s.persistCalls)
        ((PairwiseBinarySorter.decide s.rootsSorter left).2).sorted
        s.childrenSortedByParent] = _
      rw [hpf]
      rfl
    · rfl
  · intro ora s pid child hrem hpf
    simp only [autoPlaceOne, hrem]
    have hcond : ¬((persistStep ora (trivialPlace s pid child)).2.1
        = true) := by
      show ¬((!ora.pf s.persistCalls) = true)
      rw [hpf]
      simp
    rw [if_neg hcond]
    constructor
    · show [(persistStep ora (trivialPlace s pid child)).2.2] = _
      rw [persistStep_ev]
      show [Ev.persist (!ora.pf s.persistCalls) s.rootsSorter.sorted
        (appendA s.childrenSortedByParent pid child)] = _
      rw [hpf]
      rfl
    · rfl

def c1OraG : Oracles := ⟨fun _ => false, fun _ => false⟩

def c1OraF : Oracles := ⟨fun _ => true, fun _ => false⟩

def c1A : Task := { title := "A", id := some "a1", task_list_id := some "L" }

def c1B : Task :=
  { title := "B", id := some "b1", task_list_id := some "L", parent := some "p1" }

def c1C : Task :=
  { title := "Cc", id := some "c1x", task_list_id := some "L", parent := some "p1" }

def c1CS : PairwiseBinarySorter := ⟨[c1C], [c1B], [⟨0, 1, 0, c1B⟩]⟩

def c1CSp : PairwiseBinarySorter := ⟨[c1B, c1C], [], []⟩

def c1S : CtrlState :=
  { rootsSorter := ⟨[c1A], [], []⟩
    currentParentId := some "p1"
    childSorter := some c1CS
    pendingChildDeletes := [("p1", [c1C])] }

def c1TR : Task := { title := "R", id := some "r1", task_list_id := some "L" }

def c1S2 : CtrlState := { rootsSorter := ⟨[c1A], [c1TR], [⟨0, 1, 0, c1TR⟩]⟩ }

def c1S3 : CtrlState :=
  { rootsSorter := ⟨[], [], []⟩
    childrenRemainingByParent := [("p1", [c1B])] }

theorem C1_witness :
    GoodTrace (ctrlRun c1OraG (mkController [] [] [c1A] [])
      [Act.refresh, Act.decideL, Act.doFlush]).2 ∧
    ((ctrlDecide c1OraF c1S true).2 =
        [Ev.persist false c1S.rootsSorter.sorted
          (setA c1S.childrenSortedByParent "p1" c1CSp.sorted)] ∧
      (ctrlDecide c1OraF c1S true).1.deletedIds = c1S.deletedIds ∧
      lookupA (ctrlDecide c1OraF c1S true).1.pendingChildDeletes "p1" =
        some ((lookupA c1S.pendingChildDeletes "p1").getD [] ++ [c1B])) ∧
    ((ctrlDecide c1OraF c1S2 true).2 =
        [Ev.persist false
          ((PairwiseBinarySorter.decide c1S2.rootsSorter true).2).sorted
          c1S2.childrenSortedByParent] ∧
      (ctrlDecide c1OraF c1S2 true).1.deletedIds = c1S2.deletedIds) ∧
    ((autoPlaceOne c1OraF c1S3 "p1").2 =
        [Ev.persist false c1S3.rootsSorter.sorted
          (appendA c1S3.childrenSortedByParent "p1" c1B)] ∧
      (autoPlaceOne c1OraF c1S3 "p1").1.deletedIds = c1S3.deletedIds) :=
  ⟨C1_persist_before_delete.1 [] [] [c1A] [] c1OraG
      [Act.refresh, Act.decideL, Act.doFlush],
   C1_persist_before_delete.2.1 c1OraF c1S "p1" c1CS c1CSp c1B true rfl rfl
      (by decide) rfl (by decide) rfl rfl,
   C1_persist_before_delete.2.2.1 c1OraF c1S2 true c1TR rfl (by decide) rfl,
   C1_persist_before_delete.2.2.2 c1OraF c1S3 "p1" c1B rfl rfl⟩

end UVI
